import Mathlib

/-!
Verification of the `s3fifo` crate (an S3-FIFO cache, `src/lib.rs`) against
its natural-language specification.

The embedding models the Rust code at the level of its policy state machine:

* the two `VecDeque<(K, HashValue)>` queues become lists whose head is the
  queue front (`pop_front` takes the head, `push_back` appends);
* `hashbrown::HashTable<Bucket<K, V>>` becomes a list of buckets, each kept
  with the hash it was inserted under; `find(hash, eq)` is a first-match
  scan, `insert_unique` appends, `remove` deletes the first match;
* `Bucket::key_ptr` (a pointer to the key held by the owning queue) is
  modelled by storing the key value itself;
* `VecDeque::with_capacity(n)` is modelled as fixing `capacity() = n`, the
  sizing the code's `len() == capacity()` checks rely on;
* a Rust panic (a failed `assert!`, `unwrap`, or `unreachable!`) is `none` /
  `EvictRes.panicked`; `u8` frequency arithmetic is carried out on `Nat`
  with the masks made explicit;
* the eviction loops are given as fuel-indexed functions together with the
  measure (the sum of `freq + 1` over the queue) that proves the fuel
  sufficient, so every definition stays executable.

The by-value reading of `key_ptr` is an abstraction: it describes the states
the program leaves behind after a *completed* operation, but it cannot
express the dangling pointer that `evict_small`'s promotion creates (the
bucket keeps pointing into the small ring slot that the next small push
overwrites, the corruption lib.rs:150 documents), nor the unconditional
`assert_main_fifo` self-checks (lib.rs:92/95/111/114/124/151/175/182) that
this corruption trips. A second, pointer-accurate model (`RingBuf`,
`KeyPtr`, `PtrS3FIFO`, `ptrPut` below) keeps the ring-buffer layout and the
slot-level pointers and includes every self-check; it is used to settle the
claim about `put`'s absent-key behaviour on the trace where the program
panics.
-/

namespace S3Fifo

open scoped List

/-- Rust `type HashValue = u64` (src/lib.rs:13); hash values are modelled as
natural numbers produced by a caller-supplied hash function. -/
abbrev HashValue := Nat

/-- Rust `struct Bucket<K, V>` (src/lib.rs:324-333): the key (via `key_ptr`,
here stored by value), the value, and the `u8` frequency counter. Storing
the key by value abstracts the pointer: it is accurate for every state a
completed operation leaves behind, but it cannot show `key_ptr` dangling
after a promotion moves the key out of the small ring (see `PtrBucket`
below for the pointer-accurate version). -/
structure Bucket (K V : Type) where
  key : K
  value : V
  freq : Nat
deriving DecidableEq, Repr

/-- Rust `Bucket::incr_freq` (src/lib.rs:336-339): `self.freq = (self.freq + 1) & 3`.
On a `u8` the addition wraps at 256, and `(x % 256) & 3 = x % 4` because 4
divides 256, so the operation is exactly `(freq + 1) % 4` on `Nat`. Note it
wraps 3 to 0 rather than saturating. -/
def incrFreq {K V : Type} (b : Bucket K V) : Bucket K V :=
  { b with freq := (b.freq + 1) % 4 }

/-- Model of `HashTable<Bucket<K, V>>`: each bucket together with the hash it
was inserted under (the hash all `find(hash, …)` probes for it use). -/
abbrev Table (K V : Type) := List (HashValue × Bucket K V)

variable {K V : Type} [DecidableEq K]

/-- Model of the probe `table.find(hash, |probe_bucket| (*probe_bucket.key_ptr).eq(k))`:
a stored bucket answers when it sits under `hash` and its key equals `k`. -/
def probes (h : HashValue) (k : K) (e : HashValue × Bucket K V) : Bool :=
  decide (e.1 = h ∧ e.2.key = k)

/-- Model of `HashTable::find` / the lookup part of `find_mut`. -/
def findTable (t : Table K V) (h : HashValue) (k : K) : Option (Bucket K V) :=
  (t.find? (probes h k)).map Prod.snd

/-- Model of mutation through `find_mut` / `find_entry(..).get_mut()`: rewrite
the first bucket matching the probe in place. -/
def tableModify (h : HashValue) (k : K) (f : Bucket K V → Bucket K V) :
    Table K V → Table K V
  | [] => []
  | e :: rest =>
    if probes h k e then (e.1, f e.2) :: rest else e :: tableModify h k f rest

/-- Model of `find_entry(..)?.remove()`: delete the first matching bucket. -/
def tableRemove (t : Table K V) (h : HashValue) (k : K) : Table K V :=
  t.eraseP (probes h k)

/-- Model of `HashTable::insert_unique` (the table grows as needed). -/
def tableInsert (t : Table K V) (h : HashValue) (b : Bucket K V) : Table K V :=
  t ++ [(h, b)]

/-- Rust `struct GhostFIFOCache` (src/lib.rs:345-351): a `HashTable<HashValue>`
for lookup and a `VecDeque<HashValue>` holding the FIFO order, plus the fixed
capacity the `len() == capacity()` checks compare against. -/
structure GhostFIFOCache where
  table : List HashValue
  ring_buffer : List HashValue
  cap : Nat
deriving DecidableEq, Repr

/-- Rust `GhostFIFOCache::new` (src/lib.rs:354-359). -/
def GhostFIFOCache.new (cap : Nat) : GhostFIFOCache :=
  { table := [], ring_buffer := [], cap := cap }

/-- Rust `GhostFIFOCache::contains` (src/lib.rs:361-364):
`self.table.find(hash, |&probe| probe == hash).is_some()`. -/
def GhostFIFOCache.contains (g : GhostFIFOCache) (h : HashValue) : Bool :=
  (g.table.find? (fun probe => probe == h)).isSome

/-- Rust `GhostFIFOCache::insert` (src/lib.rs:366-385). `none` models a panic:
the `pop_front().unwrap()` on an empty ring buffer (capacity 0) or the
`find_entry(..).unwrap()` on a hash missing from the mirror table. -/
def GhostFIFOCache.insert (g : GhostFIFOCache) (h : HashValue) :
    Option GhostFIFOCache :=
  if g.contains h then some g
  else if g.ring_buffer.length = g.cap then
    match g.ring_buffer with
    | [] => none
    | garbage :: rest =>
      if (g.table.find? (fun probe => probe == garbage)).isSome then
        some { table := (g.table.eraseP (fun probe => probe == garbage)) ++ [h],
               ring_buffer := rest ++ [h], cap := g.cap }
      else none
  else
    some { table := g.table ++ [h], ring_buffer := g.ring_buffer ++ [h],
           cap := g.cap }

/-- Rust `struct S3FIFO<K, V, S>` (src/lib.rs:16-22). The hash builder is a
pure function `K → HashValue`; each queue carries the fixed capacity its
`VecDeque::with_capacity` call established. -/
structure S3FIFO (K V : Type) where
  hash : K → HashValue
  small_fifo : List (K × HashValue)
  small_cap : Nat
  main_fifo : List (K × HashValue)
  main_cap : Nat
  ghost_fifo : GhostFIFOCache
  table : Table K V

/-- Rust `S3FIFO::with_hasher` (src/lib.rs:40-51): `small = cap / 10`,
`main = cap * 9 / 10`, `ghost = main`, all queues empty. -/
def withHasher (cap : Nat) (hash : K → HashValue) : S3FIFO K V :=
  { hash := hash
    small_fifo := []
    small_cap := cap / 10
    main_fifo := []
    main_cap := cap * 9 / 10
    ghost_fifo := GhostFIFOCache.new (cap * 9 / 10)
    table := [] }

/-- Rust `S3FIFO::get` (src/lib.rs:53-64): find the bucket, bump its
frequency, return the value. The returned state is the cache after the call. -/
def get (c : S3FIFO K V) (k : K) : Option V × S3FIFO K V :=
  match findTable c.table (c.hash k) k with
  | none => (none, c)
  | some b =>
    (some b.value, { c with table := tableModify (c.hash k) k incrFreq c.table })

/-- Rust `S3FIFO::get_mut` (src/lib.rs:66-77): identical state change to
`get`; the mutable borrow is modelled by returning the value found. -/
def getMut (c : S3FIFO K V) (k : K) : Option V × S3FIFO K V :=
  match findTable c.table (c.hash k) k with
  | none => (none, c)
  | some b =>
    (some b.value, { c with table := tableModify (c.hash k) k incrFreq c.table })

/-- Result of one eviction loop: success, a panic (`unreachable!` or a failed
`unwrap` / `assert!`), or fuel exhaustion. The fuel only bounds the iteration
count of the loop; for the by-value loops the measures below prove it is
never exhausted when they run with their measures as fuel, and the
pointer-accurate loops report exhaustion as the distinct `nofuel`, never as
a panic. -/
inductive EvictRes (α : Type) where
  | ok (a : α)
  | panicked
  | nofuel
deriving DecidableEq, Repr

/-- Rust `S3FIFO::evict_main` (src/lib.rs:194-217) with an explicit iteration
budget. Each pass pops the main head, decrements its frequency
(`saturating_sub(1)`, which is `Nat` subtraction), recycles it to the tail
while the frequency stays positive, and removes it (freeing one slot) once
the frequency reaches zero. A key absent from the table is the
`unreachable!` panic. -/
def evictMainFuel : Nat → Table K V → List (K × HashValue) →
    EvictRes (Table K V × List (K × HashValue))
  | _, t, [] => .ok (t, [])
  | 0, _, _ :: _ => .nofuel
  | fuel + 1, t, (key, h) :: rest =>
    match findTable t h key with
    | none => .panicked
    | some b =>
      let freq := b.freq - 1
      if freq > 0 then
        evictMainFuel fuel (tableModify h key (fun b2 => { b2 with freq := freq }) t)
          (rest ++ [(key, h)])
      else
        .ok (tableRemove t h key, rest)

/-- Frequency the table records for `(k, h)`, zero when absent. -/
def freqOf (t : Table K V) (k : K) (h : HashValue) : Nat :=
  ((findTable t h k).map Bucket.freq).getD 0

/-- Termination measure of the `evict_main` loop: every recycling pass
decrements one entry's counter, so the sum of `freq + 1` over the queue
strictly decreases at every iteration that does not return. -/
def mainMeasure (t : Table K V) (m : List (K × HashValue)) : Nat :=
  (m.map (fun e => freqOf t e.1 e.2 + 1)).sum

/-- Rust `S3FIFO::evict_main`: the loop run with its measure as fuel (which
the termination lemma proves sufficient). `none` is a panic. -/
def evictMain (t : Table K V) (m : List (K × HashValue)) :
    Option (Table K V × List (K × HashValue)) :=
  match evictMainFuel (mainMeasure t m) t m with
  | .ok r => some r
  | _ => none

/-- Rust `S3FIFO::evict_small` (src/lib.rs:159-192) with an explicit iteration
budget. Each pass pops the small head and decrements its frequency: a still
positive frequency promotes the entry to the main tail (first running
`evict_main` when main is full); a zero frequency removes the entry from the
table, records its hash in the ghost queue and returns. -/
def evictSmallFuel : Nat → List (K × HashValue) → Table K V →
    List (K × HashValue) → Nat → GhostFIFOCache →
    EvictRes (List (K × HashValue) × Table K V × List (K × HashValue) × GhostFIFOCache)
  | _, [], t, m, _, g => .ok ([], t, m, g)
  | 0, _ :: _, _, _, _, _ => .nofuel
  | fuel + 1, (key, h) :: rest, t, m, mainCap, g =>
    match findTable t h key with
    | none => .panicked
    | some b =>
      let freq := b.freq - 1
      if freq > 0 then
        let t1 := tableModify h key (fun b2 => { b2 with freq := freq }) t
        match (if m.length = mainCap then evictMain t1 m else some (t1, m)) with
        | none => .panicked
        | some (t2, m2) => evictSmallFuel fuel rest t2 (m2 ++ [(key, h)]) mainCap g
      else
        match g.insert h with
        | none => .panicked
        | some g2 => .ok (rest, tableRemove t h key, m, g2)

/-- Rust `S3FIFO::evict_small`: the loop run with the small queue's length as
fuel (each pass pops one element, so that fuel always suffices). -/
def evictSmall (s : List (K × HashValue)) (t : Table K V)
    (m : List (K × HashValue)) (mainCap : Nat) (g : GhostFIFOCache) :
    Option (List (K × HashValue) × Table K V × List (K × HashValue) × GhostFIFOCache) :=
  match evictSmallFuel s.length s t m mainCap g with
  | .ok r => some r
  | _ => none

/-- Value replacement through `get_mut` plus `mem::replace` (src/lib.rs:82-83):
the probe's `incr_freq` has already run, then the value is swapped. -/
def replaceValue (v : V) (b : Bucket K V) : Bucket K V :=
  { incrFreq b with value := v }

/-- Rust `S3FIFO::put` (src/lib.rs:81-156). A present key is overwritten
through `get_mut` (which bumps its frequency) and the prior value returned.
An absent key probes the ghost queue: on a ghost hit it is admitted to the
main tail (running `evict_main` first when main is full), otherwise to the
small tail (running `evict_small` first when small is full). `none` models a
panic: the `assert!(small.len() != small.capacity())`, the asserted absence
re-check, or a panic inside an evictor. The unconditional `assert_main_fifo`
self-checks (lib.rs:92/95/111/114/124/151) are elided here: under the
by-value reading of `key_ptr` they always pass, so this definition describes
the completed operations only. The pointer-accurate `ptrPut` below includes
them and exhibits the reachable input on which the program panics where
this definition returns success. -/
def put (c : S3FIFO K V) (k : K) (v : V) : Option (Option V × S3FIFO K V) :=
  match findTable c.table (c.hash k) k with
  | some b =>
    some (some b.value,
      { c with table :=
          tableModify (c.hash k) k (replaceValue v) c.table })
  | none =>
    if c.ghost_fifo.contains (c.hash k) then
      match (if c.main_fifo.length = c.main_cap
             then evictMain c.table c.main_fifo
             else some (c.table, c.main_fifo)) with
      | none => none
      | some (t, m) =>
        some (none, { c with
          table := tableInsert t (c.hash k) ⟨k, v, 0⟩
          main_fifo := m ++ [(k, c.hash k)] })
    else
      match (if c.small_fifo.length = c.small_cap
             then evictSmall c.small_fifo c.table c.main_fifo c.main_cap c.ghost_fifo
             else some (c.small_fifo, c.table, c.main_fifo, c.ghost_fifo)) with
      | none => none
      | some (s, t, m, g) =>
        if s.length = c.small_cap then none
        else if (findTable t (c.hash k) k).isSome then none
        else
          some (none, { c with
            small_fifo := s ++ [(k, c.hash k)]
            table := tableInsert t (c.hash k) ⟨k, v, 0⟩
            main_fifo := m
            ghost_fifo := g })

/-- Cache states reachable from construction by the public operations
(`put` only extends reachability when it returns, i.e. does not panic). -/
inductive Reachable : S3FIFO K V → Prop where
  | init (cap : Nat) (hash : K → HashValue) : Reachable (withHasher cap hash)
  | get {c : S3FIFO K V} (k : K) : Reachable c → Reachable (get c k).2
  | getMut {c : S3FIFO K V} (k : K) : Reachable c → Reachable (getMut c k).2
  | put {c : S3FIFO K V} {r : Option V} {c' : S3FIFO K V} (k : K) (v : V) :
      Reachable c → put c k v = some (r, c') → Reachable c'

/-- Keys of a queue, in order. -/
def queueKeys (l : List (K × HashValue)) : List K := l.map Prod.fst

/-! ### Lemmas about the table primitives -/

theorem probes_iff {h : HashValue} {k : K} {e : HashValue × Bucket K V} :
    probes h k e = true ↔ e.1 = h ∧ e.2.key = k := by
  simp [probes]

theorem findTable_eq_none_iff {t : Table K V} {h : HashValue} {k : K} :
    findTable t h k = none ↔ ∀ e ∈ t, ¬(e.1 = h ∧ e.2.key = k) := by
  simp [findTable, List.find?_eq_none, probes]

theorem findTable_isSome_iff {t : Table K V} {h : HashValue} {k : K} :
    (findTable t h k).isSome ↔ ∃ e ∈ t, e.1 = h ∧ e.2.key = k := by
  simp [findTable, List.find?_isSome, probes]

theorem findTable_eq_some {t : Table K V} {h : HashValue} {k : K} {b : Bucket K V}
    (hf : findTable t h k = some b) : b.key = k ∧ (h, b) ∈ t := by
  rcases Option.map_eq_some'.1 hf with ⟨e, he, rfl⟩
  have hp := probes_iff.1 (List.find?_some he)
  have hm := List.mem_of_find?_eq_some he
  exact ⟨hp.2, by rcases e with ⟨h0, b0⟩; cases hp.1; exact hm⟩

theorem tableModify_length (h : HashValue) (k : K) (f : Bucket K V → Bucket K V) :
    ∀ t : Table K V, (tableModify h k f t).length = t.length := by
  intro t
  induction t with
  | nil => rfl
  | cons e rest ih =>
    by_cases hp : probes h k e <;> simp [tableModify, hp, ih]

theorem tableModify_mem {h : HashValue} {k : K} {f : Bucket K V → Bucket K V}
    {t : Table K V} {e' : HashValue × Bucket K V} (hm : e' ∈ tableModify h k f t) :
    e' ∈ t ∨ ∃ e ∈ t, e' = (e.1, f e.2) := by
  induction t with
  | nil => simp [tableModify] at hm
  | cons e rest ih =>
    by_cases hp : probes h k e
    · simp [tableModify, hp] at hm
      rcases hm with h1 | h2
      · exact Or.inr ⟨e, List.mem_cons_self .., h1⟩
      · exact Or.inl (List.mem_cons_of_mem _ h2)
    · simp [tableModify, hp] at hm
      rcases hm with h1 | h2
      · exact Or.inl (h1 ▸ List.mem_cons_self ..)
      · rcases ih h2 with h3 | ⟨e0, he0, h4⟩
        · exact Or.inl (List.mem_cons_of_mem _ h3)
        · exact Or.inr ⟨e0, List.mem_cons_of_mem _ he0, h4⟩

theorem findTable_modify_self {h : HashValue} {k : K} {f : Bucket K V → Bucket K V}
    (hf : ∀ b, (f b).key = b.key) (t : Table K V) :
    findTable (tableModify h k f t) h k = (findTable t h k).map f := by
  induction t with
  | nil => rfl
  | cons e rest ih =>
    by_cases hp : probes h k e
    · have hp' : probes h k (e.1, f e.2) = true := by
        rcases probes_iff.1 hp with ⟨h1, h2⟩
        exact probes_iff.2 ⟨h1, by simpa [hf] using h2⟩
      simp [tableModify, hp, findTable, List.find?_cons_of_pos, hp']
    · simp only [tableModify, hp, if_neg, not_false_iff]
      simpa [findTable, List.find?_cons_of_neg, hp] using ih

theorem findTable_modify_other {h h' : HashValue} {k k' : K}
    {f : Bucket K V → Bucket K V} (hf : ∀ b, (f b).key = b.key)
    (hne : ¬(h' = h ∧ k' = k)) (t : Table K V) :
    findTable (tableModify h k f t) h' k' = findTable t h' k' := by
  induction t with
  | nil => rfl
  | cons e rest ih =>
    by_cases hp : probes h k e
    · rcases probes_iff.1 hp with ⟨he1, he2⟩
      have hq : probes h' k' (e.1, f e.2) = false := by
        rw [Bool.eq_false_iff]
        intro hc
        rcases probes_iff.1 hc with ⟨hc1, hc2⟩
        exact hne ⟨by rw [← hc1, he1], by rw [← hc2, hf, he2]⟩
      have hq' : probes h' k' e = false := by
        rw [Bool.eq_false_iff]
        intro hc
        rcases probes_iff.1 hc with ⟨hc1, hc2⟩
        exact hne ⟨by rw [← hc1, he1], by rw [← hc2, he2]⟩
      simp [tableModify, hp, findTable, List.find?_cons_of_neg, hq, hq']
    · by_cases hq : probes h' k' e
      · simp [tableModify, hp, findTable, List.find?_cons_of_pos, hq]
      · simp only [tableModify, hp, if_neg, not_false_iff]
        simpa [findTable, List.find?_cons_of_neg, hq] using ih

theorem findTable_modify_isSome {h h' : HashValue} {k k' : K}
    {f : Bucket K V → Bucket K V} (hf : ∀ b, (f b).key = b.key) (t : Table K V) :
    (findTable (tableModify h k f t) h' k').isSome = (findTable t h' k').isSome := by
  by_cases hc : h' = h ∧ k' = k
  · rcases hc with ⟨rfl, rfl⟩
    rw [findTable_modify_self hf]
    cases findTable t h' k' <;> rfl
  · rw [findTable_modify_other hf hc]

theorem tableModify_keys {h : HashValue} {k : K} {f : Bucket K V → Bucket K V}
    (hf : ∀ b, (f b).key = b.key) (t : Table K V) :
    (tableModify h k f t).map (fun e => e.2.key) = t.map (fun e => e.2.key) := by
  induction t with
  | nil => rfl
  | cons e rest ih =>
    by_cases hp : probes h k e <;> simp [tableModify, hp, hf, ih]

theorem findTable_insert_of_isSome {t : Table K V} {h h' : HashValue} {k' : K}
    {b : Bucket K V} (hs : (findTable t h' k').isSome) :
    findTable (tableInsert t h b) h' k' = findTable t h' k' := by
  rcases Option.isSome_iff_exists.1 hs with ⟨b', hb'⟩
  rcases Option.map_eq_some'.1 hb' with ⟨e, he, rfl⟩
  simp [tableInsert, findTable, List.find?_append, he]

theorem findTable_insert_self {t : Table K V} {h : HashValue} {k : K}
    {b : Bucket K V} (hn : findTable t h k = none) (hk : b.key = k) :
    findTable (tableInsert t h b) h k = some b := by
  have hn' : t.find? (probes h k) = none := by
    simpa [findTable] using hn
  simp [tableInsert, findTable, List.find?_append, hn', probes, hk]

theorem findTable_remove_of_ne {t : Table K V} {h h' : HashValue} {k k' : K}
    (hne : k' ≠ k) (hs : (findTable t h' k').isSome) :
    (findTable (tableRemove t h k) h' k').isSome := by
  rcases findTable_isSome_iff.1 hs with ⟨e, he, he1, he2⟩
  refine findTable_isSome_iff.2 ⟨e, ?_, he1, he2⟩
  have : ¬ probes h k e = true := by
    intro hc
    exact hne (by rw [← he2, (probes_iff.1 hc).2])
  exact (List.mem_eraseP_of_neg this).2 he

theorem findTable_remove_none {t : Table K V} {h h' : HashValue} {k k' : K}
    (hn : findTable t h' k' = none) :
    findTable (tableRemove t h k) h' k' = none := by
  have hn' : t.find? (probes h' k') = none := by simpa [findTable] using hn
  have := (List.eraseP_sublist (p := probes h k) t).find?_eq_none (p := probes h' k') hn'
  simpa [findTable, tableRemove] using this

theorem tableRemove_length {t : Table K V} {h : HashValue} {k : K} {b : Bucket K V}
    (hf : findTable t h k = some b) :
    (tableRemove t h k).length + 1 = t.length := by
  rcases Option.map_eq_some'.1 hf with ⟨e, he, rfl⟩
  have hm := List.mem_of_find?_eq_some he
  have hp := List.find?_some he
  have hpos : 0 < t.length := List.length_pos_of_mem hm
  have := List.length_eraseP_of_mem hm hp
  simp only [tableRemove, this]
  omega

theorem tableRemove_subset {t : Table K V} {h : HashValue} {k : K} :
    tableRemove t h k ⊆ t :=
  List.eraseP_subset t

/-! ### Permutation helpers -/

theorem subperm_of_subperm_nodup {α : Type} {l₁ l₂ : List α}
    (hs : l₁ <+~ l₂) (hn : l₂.Nodup) : l₁.Nodup := by
  rcases hs with ⟨u, hu, hsub⟩
  exact hu.nodup_iff.1 (hsub.nodup hn)

theorem subperm_map {α β : Type} (f : α → β) {l₁ l₂ : List α} (hs : l₁ <+~ l₂) :
    l₁.map f <+~ l₂.map f := by
  rcases hs with ⟨u, hu, hsub⟩
  exact ⟨u.map f, hu.map f, hsub.map f⟩

theorem subperm_cons_cons {α : Type} (a : α) {l₁ l₂ : List α} (hs : l₁ <+~ l₂) :
    a :: l₁ <+~ a :: l₂ := by
  rcases hs with ⟨u, hu, hsub⟩
  exact ⟨a :: u, hu.cons a, hsub.cons₂ a⟩

theorem subperm_append_compat {α : Type} (l : List α) {l₁ l₂ : List α}
    (hs : l₁ <+~ l₂) : l ++ l₁ <+~ l ++ l₂ := by
  rcases hs with ⟨u, hu, hsub⟩
  exact ⟨l ++ u, (List.Perm.append_left l hu), hsub.append_left l⟩

/-- The queue shuffle of one promotion step: the popped entry `e` moves to the
main tail while main shrinks to a subpermutation. -/
theorem subperm_promote_step {α : Type} (e : α) (rest m₂ m : List α)
    (hs : m₂ <+~ m) : rest ++ (m₂ ++ [e]) <+~ e :: (rest ++ m) := by
  have h1 : rest ++ (m₂ ++ [e]) = (rest ++ m₂) ++ [e] := by
    rw [List.append_assoc]
  have h2 : (rest ++ m₂) ++ [e] ~ e :: (rest ++ m₂) :=
    List.perm_append_singleton e (rest ++ m₂)
  have h3 : e :: (rest ++ m₂) <+~ e :: (rest ++ m) :=
    subperm_cons_cons e (subperm_append_compat rest hs)
  rw [h1]
  exact h2.subperm.trans h3

/-! ### Ghost queue lemmas -/

/-- Well-formedness of the ghost structure: the lookup table mirrors the ring
buffer exactly, fingerprints are distinct, and the buffer respects its
capacity. -/
structure GhostInv (g : GhostFIFOCache) : Prop where
  sync : g.table = g.ring_buffer
  nodup : g.ring_buffer.Nodup
  lecap : g.ring_buffer.length ≤ g.cap

theorem ghost_contains_iff {g : GhostFIFOCache} {h : HashValue} :
    g.contains h = true ↔ h ∈ g.table := by
  constructor
  · intro hc
    rcases List.find?_isSome.1 hc with ⟨x, hx, hxe⟩
    exact (beq_iff_eq.1 hxe) ▸ hx
  · intro hm
    exact List.find?_isSome.2 ⟨h, hm, by simp⟩

theorem ghost_contains_length {g : GhostFIFOCache} {h : HashValue}
    (hi : GhostInv g) (hc : g.contains h = true) : 1 ≤ g.ring_buffer.length := by
  have := ghost_contains_iff.1 hc
  rw [hi.sync] at this
  exact List.length_pos_of_mem this

theorem ghostInsert_inv {g g' : GhostFIFOCache} {h : HashValue}
    (hi : GhostInv g) (he : g.insert h = some g') :
    GhostInv g' ∧ g'.cap = g.cap := by
  by_cases hc : g.contains h = true
  · rw [GhostFIFOCache.insert, if_pos hc] at he
    cases he
    exact ⟨hi, rfl⟩
  · have hh : h ∉ g.ring_buffer := by
      intro hm
      exact hc (ghost_contains_iff.2 (hi.sync ▸ hm))
    rw [GhostFIFOCache.insert, if_neg hc] at he
    by_cases hfull : g.ring_buffer.length = g.cap
    · rw [if_pos hfull] at he
      cases hbuf : g.ring_buffer with
      | nil => rw [hbuf] at he; cases he
      | cons garbage rest =>
        rw [hbuf] at he
        simp only [] at he
        have hgt : garbage ∈ g.table := by rw [hi.sync, hbuf]; exact List.mem_cons_self ..
        have hfind : (g.table.find? (fun probe => probe == garbage)).isSome = true :=
          List.find?_isSome.2 ⟨garbage, hgt, by simp⟩
        rw [if_pos hfind] at he
        cases he
        have hnd : (garbage :: rest).Nodup := hbuf ▸ hi.nodup
        have herase : g.table.eraseP (fun probe => probe == garbage) = rest := by
          rw [hi.sync, hbuf]
          exact List.eraseP_cons_of_pos (by simp)
        have hhrest : h ∉ rest := fun hm => hh (hbuf ▸ List.mem_cons_of_mem _ hm)
        have hnodup : (rest ++ [h]).Nodup := by
          refine (List.perm_append_singleton h rest).nodup_iff.2 ?_
          exact List.nodup_cons.2 ⟨hhrest, (List.nodup_cons.1 hnd).2⟩
        refine ⟨⟨by simp [herase], hnodup, ?_⟩, rfl⟩
        have : rest.length + 1 = g.cap := by
          rw [← hfull, hbuf]; simp
        simp
        omega
    · rw [if_neg hfull] at he
      cases he
      have hnodup : (g.ring_buffer ++ [h]).Nodup := by
        refine (List.perm_append_singleton h g.ring_buffer).nodup_iff.2 ?_
        exact List.nodup_cons.2 ⟨hh, hi.nodup⟩
      refine ⟨⟨by rw [hi.sync], hnodup, ?_⟩, rfl⟩
      have := hi.lecap
      simp
      omega

/-! ### Unfolding equations for the eviction loops -/

theorem evictMainFuel_nil (fuel : Nat) (t : Table K V) :
    evictMainFuel fuel t [] = .ok (t, []) := by
  cases fuel <;> rfl

theorem evictMainFuel_succ (fuel : Nat) (t : Table K V) (key : K) (h : HashValue)
    (rest : List (K × HashValue)) :
    evictMainFuel (fuel + 1) t ((key, h) :: rest) =
      match findTable t h key with
      | none => .panicked
      | some b =>
        if b.freq - 1 > 0 then
          evictMainFuel fuel
            (tableModify h key (fun b2 => { b2 with freq := b.freq - 1 }) t)
            (rest ++ [(key, h)])
        else .ok (tableRemove t h key, rest) := rfl

theorem evictMainFuel_succ_panic {fuel : Nat} {t : Table K V} {key : K}
    {h : HashValue} {rest : List (K × HashValue)}
    (hfind : findTable t h key = none) :
    evictMainFuel (fuel + 1) t ((key, h) :: rest) = .panicked := by
  rw [evictMainFuel_succ, hfind]

theorem evictMainFuel_succ_promote {fuel : Nat} {t : Table K V} {key : K}
    {h : HashValue} {rest : List (K × HashValue)} {b : Bucket K V}
    (hfind : findTable t h key = some b) (hpos : 0 < b.freq - 1) :
    evictMainFuel (fuel + 1) t ((key, h) :: rest) =
      evictMainFuel fuel
        (tableModify h key (fun b2 => { b2 with freq := b.freq - 1 }) t)
        (rest ++ [(key, h)]) := by
  rw [evictMainFuel_succ, hfind]
  simp [hpos]

theorem evictMainFuel_succ_remove {fuel : Nat} {t : Table K V} {key : K}
    {h : HashValue} {rest : List (K × HashValue)} {b : Bucket K V}
    (hfind : findTable t h key = some b) (hz : b.freq - 1 = 0) :
    evictMainFuel (fuel + 1) t ((key, h) :: rest) =
      .ok (tableRemove t h key, rest) := by
  rw [evictMainFuel_succ, hfind]
  simp [hz]

theorem evictMainFuel_zero_cons (t : Table K V) (e : K × HashValue)
    (rest : List (K × HashValue)) :
    evictMainFuel 0 t (e :: rest) = .nofuel := rfl

/-! ### Termination of the main eviction loop -/

theorem mainMeasure_nil (t : Table K V) : mainMeasure t [] = 0 := rfl

theorem mainMeasure_cons (t : Table K V) (e : K × HashValue)
    (rest : List (K × HashValue)) :
    mainMeasure t (e :: rest) = freqOf t e.1 e.2 + 1 + mainMeasure t rest := by
  simp [mainMeasure]

theorem mainMeasure_cons_pair (t : Table K V) (key : K) (h : HashValue)
    (rest : List (K × HashValue)) :
    mainMeasure t ((key, h) :: rest) = freqOf t key h + 1 + mainMeasure t rest := by
  simpa using mainMeasure_cons t (key, h) rest

theorem mainMeasure_append (t : Table K V) (l₁ l₂ : List (K × HashValue)) :
    mainMeasure t (l₁ ++ l₂) = mainMeasure t l₁ + mainMeasure t l₂ := by
  simp [mainMeasure]

theorem mainMeasure_mono {t t' : Table K V} {m : List (K × HashValue)}
    (hle : ∀ p ∈ m, freqOf t' p.1 p.2 ≤ freqOf t p.1 p.2) :
    mainMeasure t' m ≤ mainMeasure t m := by
  unfold mainMeasure
  apply List.sum_le_sum
  intro p hp
  exact Nat.add_le_add_right (hle p hp) 1

theorem freqOf_some {t : Table K V} {key : K} {h : HashValue} {b : Bucket K V}
    (hfind : findTable t h key = some b) : freqOf t key h = b.freq := by
  unfold freqOf
  rw [hfind]
  rfl

theorem freqOf_modify_self {t : Table K V} {key : K} {h : HashValue}
    {b : Bucket K V} (hfind : findTable t h key = some b) (n : Nat) :
    freqOf (tableModify h key (fun b2 => { b2 with freq := n }) t) key h = n := by
  unfold freqOf
  rw [findTable_modify_self (f := fun b2 => { b2 with freq := n }) (fun b2 => rfl), hfind]
  rfl

theorem freqOf_modify_le {t : Table K V} {key : K} {h : HashValue}
    {b : Bucket K V} (hfind : findTable t h key = some b) {n : Nat}
    (hn : n ≤ b.freq) (p : K × HashValue) :
    freqOf (tableModify h key (fun b2 => { b2 with freq := n }) t) p.1 p.2 ≤
      freqOf t p.1 p.2 := by
  by_cases hc : p.2 = h ∧ p.1 = key
  · rcases hc with ⟨h1, h2⟩
    rw [h1, h2, freqOf_modify_self hfind, freqOf_some hfind]
    exact hn
  · unfold freqOf
    rw [findTable_modify_other (f := fun b2 => { b2 with freq := n }) (fun b2 => rfl) hc]

theorem mainMeasure_step {t : Table K V} {key : K} {h : HashValue}
    {b : Bucket K V} (hfind : findTable t h key = some b)
    (hpos : 0 < b.freq - 1) (rest : List (K × HashValue)) :
    mainMeasure (tableModify h key (fun b2 => { b2 with freq := b.freq - 1 }) t)
      (rest ++ [(key, h)]) < mainMeasure t ((key, h) :: rest) := by
  have hself :
      freqOf (tableModify h key (fun b2 => { b2 with freq := b.freq - 1 }) t) key h
        = b.freq - 1 := freqOf_modify_self hfind _
  have hrest :
      mainMeasure (tableModify h key (fun b2 => { b2 with freq := b.freq - 1 }) t) rest
        ≤ mainMeasure t rest :=
    mainMeasure_mono (fun p _ => freqOf_modify_le hfind (Nat.sub_le _ _) p)
  have h1 := mainMeasure_append
    (tableModify h key (fun b2 => { b2 with freq := b.freq - 1 }) t) rest [(key, h)]
  have h2 := mainMeasure_cons_pair
    (tableModify h key (fun b2 => { b2 with freq := b.freq - 1 }) t) key h []
  have h3 := mainMeasure_cons_pair t key h rest
  have h4 := freqOf_some hfind
  have h5 := mainMeasure_nil
    (tableModify h key (fun b2 => { b2 with freq := b.freq - 1 }) t)
  simp only [h5] at h2
  omega

theorem evictMainFuel_not_nofuel :
    ∀ (fuel : Nat) (t : Table K V) (m : List (K × HashValue)),
      mainMeasure t m ≤ fuel → evictMainFuel fuel t m ≠ .nofuel := by
  intro fuel
  induction fuel with
  | zero =>
    intro t m hm
    cases m with
    | nil => rw [evictMainFuel_nil]; simp
    | cons e rest =>
      exfalso
      have := mainMeasure_cons t e rest
      omega
  | succ fuel ih =>
    intro t m hm
    cases m with
    | nil => rw [evictMainFuel_nil]; simp
    | cons e rest =>
      obtain ⟨key, h⟩ := e
      cases hfind : findTable t h key with
      | none => rw [evictMainFuel_succ_panic hfind]; simp
      | some b =>
        by_cases hpos : 0 < b.freq - 1
        · rw [evictMainFuel_succ_promote hfind hpos]
          apply ih
          have hstep := mainMeasure_step hfind hpos rest
          omega
        · rw [evictMainFuel_succ_remove hfind (by omega)]
          simp

theorem mainMeasure_le_of_freq {t : Table K V}
    (hfreq : ∀ e ∈ t, e.2.freq ≤ 3) :
    ∀ m : List (K × HashValue), mainMeasure t m ≤ 4 * m.length := by
  intro m
  induction m with
  | nil => simp [mainMeasure_nil]
  | cons e rest ih =>
    have hfo : freqOf t e.1 e.2 ≤ 3 := by
      unfold freqOf
      cases hfind : findTable t e.2 e.1 with
      | none => simp
      | some b =>
        have hm := (findTable_eq_some hfind).2
        simpa using hfreq _ hm
    rw [mainMeasure_cons, List.length_cons]
    omega

/-! ### Properties of a completed main eviction -/

theorem evictMainFuel_ok_length :
    ∀ (fuel : Nat) (t : Table K V) (m : List (K × HashValue))
      {t' : Table K V} {m' : List (K × HashValue)},
      evictMainFuel fuel t m = .ok (t', m') →
      (m = [] ∧ t' = t ∧ m' = []) ∨
        (t'.length + 1 = t.length ∧ m'.length + 1 = m.length) := by
  intro fuel
  induction fuel with
  | zero =>
    intro t m t' m' he
    cases m with
    | nil =>
      rw [evictMainFuel_nil] at he
      cases he
      exact Or.inl ⟨rfl, rfl, rfl⟩
    | cons e rest =>
      rw [evictMainFuel_zero_cons] at he
      cases he
  | succ fuel ih =>
    intro t m t' m' he
    cases m with
    | nil =>
      rw [evictMainFuel_nil] at he
      cases he
      exact Or.inl ⟨rfl, rfl, rfl⟩
    | cons e rest =>
      obtain ⟨key, h⟩ := e
      cases hfind : findTable t h key with
      | none => rw [evictMainFuel_succ_panic hfind] at he; cases he
      | some b =>
        by_cases hpos : 0 < b.freq - 1
        · rw [evictMainFuel_succ_promote hfind hpos] at he
          rcases ih _ _ he with ⟨hnil, _, _⟩ | ⟨h1, h2⟩
          · simp at hnil
          · refine Or.inr ⟨?_, ?_⟩
            · rw [h1, tableModify_length]
            · simp only [List.length_append, List.length_cons,
                List.length_nil] at h2 ⊢
              omega
        · rw [evictMainFuel_succ_remove hfind (by omega)] at he
          cases he
          refine Or.inr ⟨tableRemove_length hfind, by simp⟩

theorem evictMainFuel_ok_subperm :
    ∀ (fuel : Nat) (t : Table K V) (m : List (K × HashValue))
      {t' : Table K V} {m' : List (K × HashValue)},
      evictMainFuel fuel t m = .ok (t', m') → m' <+~ m := by
  intro fuel
  induction fuel with
  | zero =>
    intro t m t' m' he
    cases m with
    | nil => rw [evictMainFuel_nil] at he; cases he; exact List.Subperm.refl _
    | cons e rest => rw [evictMainFuel_zero_cons] at he; cases he
  | succ fuel ih =>
    intro t m t' m' he
    cases m with
    | nil => rw [evictMainFuel_nil] at he; cases he; exact List.Subperm.refl _
    | cons e rest =>
      obtain ⟨key, h⟩ := e
      cases hfind : findTable t h key with
      | none => rw [evictMainFuel_succ_panic hfind] at he; cases he
      | some b =>
        by_cases hpos : 0 < b.freq - 1
        · rw [evictMainFuel_succ_promote hfind hpos] at he
          have := ih _ _ he
          exact this.trans (List.perm_append_singleton (key, h) rest).subperm
        · rw [evictMainFuel_succ_remove hfind (by omega)] at he
          cases he
          exact List.Subperm.cons_self

theorem evictMainFuel_ok_find_none :
    ∀ (fuel : Nat) (t : Table K V) (m : List (K × HashValue))
      {t' : Table K V} {m' : List (K × HashValue)} {h0 : HashValue} {k0 : K},
      findTable t h0 k0 = none → evictMainFuel fuel t m = .ok (t', m') →
      findTable t' h0 k0 = none := by
  intro fuel
  induction fuel with
  | zero =>
    intro t m t' m' h0 k0 hn he
    cases m with
    | nil => rw [evictMainFuel_nil] at he; cases he; exact hn
    | cons e rest => rw [evictMainFuel_zero_cons] at he; cases he
  | succ fuel ih =>
    intro t m t' m' h0 k0 hn he
    cases m with
    | nil => rw [evictMainFuel_nil] at he; cases he; exact hn
    | cons e rest =>
      obtain ⟨key, h⟩ := e
      cases hfind : findTable t h key with
      | none => rw [evictMainFuel_succ_panic hfind] at he; cases he
      | some b =>
        by_cases hpos : 0 < b.freq - 1
        · rw [evictMainFuel_succ_promote hfind hpos] at he
          refine ih _ _ ?_ he
          by_cases hc : h0 = h ∧ k0 = key
          · rcases hc with ⟨rfl, rfl⟩
            rw [hn] at hfind
            cases hfind
          · rw [findTable_modify_other (f := fun b2 => { b2 with freq := b.freq - 1 })
                (fun b2 => rfl) hc]
            exact hn
        · rw [evictMainFuel_succ_remove hfind (by omega)] at he
          cases he
          exact findTable_remove_none hn

theorem evictMainFuel_ok_find_outside :
    ∀ (fuel : Nat) (t : Table K V) (m : List (K × HashValue))
      {t' : Table K V} {m' : List (K × HashValue)} {h0 : HashValue} {k0 : K},
      k0 ∉ queueKeys m → (findTable t h0 k0).isSome →
      evictMainFuel fuel t m = .ok (t', m') → (findTable t' h0 k0).isSome := by
  intro fuel
  induction fuel with
  | zero =>
    intro t m t' m' h0 k0 _ hs he
    cases m with
    | nil => rw [evictMainFuel_nil] at he; cases he; exact hs
    | cons e rest => rw [evictMainFuel_zero_cons] at he; cases he
  | succ fuel ih =>
    intro t m t' m' h0 k0 hout hs he
    cases m with
    | nil => rw [evictMainFuel_nil] at he; cases he; exact hs
    | cons e rest =>
      obtain ⟨key, h⟩ := e
      have hk0 : k0 ≠ key := by
        intro hc
        exact hout (hc ▸ List.mem_cons_self ..)
      have hrest : k0 ∉ queueKeys rest := by
        intro hc
        exact hout (List.mem_cons_of_mem _ hc)
      cases hfind : findTable t h key with
      | none => rw [evictMainFuel_succ_panic hfind] at he; cases he
      | some b =>
        by_cases hpos : 0 < b.freq - 1
        · rw [evictMainFuel_succ_promote hfind hpos] at he
          refine ih _ _ ?_ ?_ he
          · intro hc
            simp only [queueKeys, List.map_append, List.mem_append] at hc
            rcases hc with hc | hc
            · exact hrest hc
            · simp at hc
              exact hk0 hc
          · rw [findTable_modify_isSome (f := fun b2 => { b2 with freq := b.freq - 1 })
                (fun b2 => rfl)]
            exact hs
        · rw [evictMainFuel_succ_remove hfind (by omega)] at he
          cases he
          exact findTable_remove_of_ne hk0 hs

theorem evictMainFuel_ok_cover :
    ∀ (fuel : Nat) (t : Table K V) (m : List (K × HashValue))
      {t' : Table K V} {m' : List (K × HashValue)},
      (queueKeys m).Nodup → (∀ p ∈ m, (findTable t p.2 p.1).isSome) →
      evictMainFuel fuel t m = .ok (t', m') →
      ∀ p ∈ m', (findTable t' p.2 p.1).isSome := by
  intro fuel
  induction fuel with
  | zero =>
    intro t m t' m' _ hcov he
    cases m with
    | nil =>
      rw [evictMainFuel_nil] at he
      cases he
      intro p hp
      simp at hp
    | cons e rest => rw [evictMainFuel_zero_cons] at he; cases he
  | succ fuel ih =>
    intro t m t' m' hnd hcov he
    cases m with
    | nil =>
      rw [evictMainFuel_nil] at he
      cases he
      intro p hp
      simp at hp
    | cons e rest =>
      obtain ⟨key, h⟩ := e
      have hknotin : key ∉ queueKeys rest := by
        have := hnd
        simp only [queueKeys, List.map_cons, List.nodup_cons] at this
        exact this.1
      cases hfind : findTable t h key with
      | none => rw [evictMainFuel_succ_panic hfind] at he; cases he
      | some b =>
        by_cases hpos : 0 < b.freq - 1
        · rw [evictMainFuel_succ_promote hfind hpos] at he
          refine ih _ _ ?_ ?_ he
          · simp only [queueKeys, List.map_append] at *
            refine (List.perm_append_singleton _ _).nodup_iff.2 ?_
            simp only [List.map_cons, List.nodup_cons] at hnd
            exact List.nodup_cons.2 ⟨hknotin, hnd.2⟩
          · intro p hp
            rw [findTable_modify_isSome (f := fun b2 => { b2 with freq := b.freq - 1 })
              (fun b2 => rfl)]
            rcases List.mem_append.1 hp with hp | hp
            · exact hcov p (List.mem_cons_of_mem _ hp)
            · simp at hp
              rw [hp]
              simp [hfind]
        · rw [evictMainFuel_succ_remove hfind (by omega)] at he
          cases he
          intro p hp
          have hne : p.1 ≠ key := by
            intro hc
            apply hknotin
            rw [← hc]
            exact List.mem_map_of_mem Prod.fst hp
          exact findTable_remove_of_ne hne (hcov p (List.mem_cons_of_mem _ hp))

theorem evictMainFuel_ok_freq :
    ∀ (fuel : Nat) (t : Table K V) (m : List (K × HashValue))
      {t' : Table K V} {m' : List (K × HashValue)},
      (∀ e ∈ t, e.2.freq ≤ 3) → evictMainFuel fuel t m = .ok (t', m') →
      ∀ e ∈ t', e.2.freq ≤ 3 := by
  intro fuel
  induction fuel with
  | zero =>
    intro t m t' m' hfreq he
    cases m with
    | nil => rw [evictMainFuel_nil] at he; cases he; exact hfreq
    | cons e rest => rw [evictMainFuel_zero_cons] at he; cases he
  | succ fuel ih =>
    intro t m t' m' hfreq he
    cases m with
    | nil => rw [evictMainFuel_nil] at he; cases he; exact hfreq
    | cons e rest =>
      obtain ⟨key, h⟩ := e
      cases hfind : findTable t h key with
      | none => rw [evictMainFuel_succ_panic hfind] at he; cases he
      | some b =>
        have hble : b.freq ≤ 3 := by
          have hm := (findTable_eq_some hfind).2
          simpa using hfreq _ hm
        by_cases hpos : 0 < b.freq - 1
        · rw [evictMainFuel_succ_promote hfind hpos] at he
          refine ih _ _ ?_ he
          intro e2 he2
          rcases tableModify_mem he2 with hm | ⟨e0, he0, rfl⟩
          · exact hfreq _ hm
          · show b.freq - 1 ≤ 3
            omega
        · rw [evictMainFuel_succ_remove hfind (by omega)] at he
          cases he
          exact fun e2 he2 => hfreq _ (tableRemove_subset he2)

theorem evictMainFuel_ok_thash :
    ∀ (fuel : Nat) (t : Table K V) (m : List (K × HashValue))
      {t' : Table K V} {m' : List (K × HashValue)} {hashF : K → HashValue},
      (∀ e ∈ t, e.1 = hashF e.2.key) → evictMainFuel fuel t m = .ok (t', m') →
      ∀ e ∈ t', e.1 = hashF e.2.key := by
  intro fuel
  induction fuel with
  | zero =>
    intro t m t' m' hashF hth he
    cases m with
    | nil => rw [evictMainFuel_nil] at he; cases he; exact hth
    | cons e rest => rw [evictMainFuel_zero_cons] at he; cases he
  | succ fuel ih =>
    intro t m t' m' hashF hth he
    cases m with
    | nil => rw [evictMainFuel_nil] at he; cases he; exact hth
    | cons e rest =>
      obtain ⟨key, h⟩ := e
      cases hfind : findTable t h key with
      | none => rw [evictMainFuel_succ_panic hfind] at he; cases he
      | some b =>
        by_cases hpos : 0 < b.freq - 1
        · rw [evictMainFuel_succ_promote hfind hpos] at he
          refine ih _ _ ?_ he
          intro e2 he2
          rcases tableModify_mem he2 with hm | ⟨e0, he0, rfl⟩
          · exact hth _ hm
          · show e0.1 = hashF (e0.2.key)
            exact hth e0 he0
        · rw [evictMainFuel_succ_remove hfind (by omega)] at he
          cases he
          exact fun e2 he2 => hth _ (tableRemove_subset he2)

theorem evictMainFuel_ok_keySublist :
    ∀ (fuel : Nat) (t : Table K V) (m : List (K × HashValue))
      {t' : Table K V} {m' : List (K × HashValue)},
      evictMainFuel fuel t m = .ok (t', m') →
      (t'.map fun e => e.2.key) <+ (t.map fun e => e.2.key) := by
  intro fuel
  induction fuel with
  | zero =>
    intro t m t' m' he
    cases m with
    | nil => rw [evictMainFuel_nil] at he; cases he; exact List.Sublist.refl _
    | cons e rest => rw [evictMainFuel_zero_cons] at he; cases he
  | succ fuel ih =>
    intro t m t' m' he
    cases m with
    | nil => rw [evictMainFuel_nil] at he; cases he; exact List.Sublist.refl _
    | cons e rest =>
      obtain ⟨key, h⟩ := e
      cases hfind : findTable t h key with
      | none => rw [evictMainFuel_succ_panic hfind] at he; cases he
      | some b =>
        by_cases hpos : 0 < b.freq - 1
        · rw [evictMainFuel_succ_promote hfind hpos] at he
          have := ih _ _ he
          rwa [tableModify_keys (f := fun b2 => { b2 with freq := b.freq - 1 })
            (fun b2 => rfl)] at this
        · rw [evictMainFuel_succ_remove hfind (by omega)] at he
          cases he
          exact (List.eraseP_sublist _).map _

theorem evictMain_eq_ok {t : Table K V} {m : List (K × HashValue)}
    {t' : Table K V} {m' : List (K × HashValue)}
    (he : evictMain t m = some (t', m')) :
    evictMainFuel (mainMeasure t m) t m = .ok (t', m') := by
  unfold evictMain at he
  cases hr : evictMainFuel (mainMeasure t m) t m with
  | ok r => rw [hr] at he; cases he; rfl
  | panicked => rw [hr] at he; cases he
  | nofuel => rw [hr] at he; cases he

/-! ### Unfolding equations for the small eviction loop -/

theorem evictSmallFuel_nil (fuel : Nat) (t : Table K V)
    (m : List (K × HashValue)) (mainCap : Nat) (g : GhostFIFOCache) :
    evictSmallFuel fuel [] t m mainCap g = .ok ([], t, m, g) := by
  cases fuel <;> rfl

theorem evictSmallFuel_zero_cons (e : K × HashValue) (rest : List (K × HashValue))
    (t : Table K V) (m : List (K × HashValue)) (mainCap : Nat) (g : GhostFIFOCache) :
    evictSmallFuel 0 (e :: rest) t m mainCap g = .nofuel := rfl

theorem evictSmallFuel_succ (fuel : Nat) (key : K) (h : HashValue)
    (rest : List (K × HashValue)) (t : Table K V) (m : List (K × HashValue))
    (mainCap : Nat) (g : GhostFIFOCache) :
    evictSmallFuel (fuel + 1) ((key, h) :: rest) t m mainCap g =
      match findTable t h key with
      | none => .panicked
      | some b =>
        if b.freq - 1 > 0 then
          match (if m.length = mainCap
                 then evictMain
                   (tableModify h key (fun b2 => { b2 with freq := b.freq - 1 }) t) m
                 else some
                   (tableModify h key (fun b2 => { b2 with freq := b.freq - 1 }) t, m)) with
          | none => .panicked
          | some (t2, m2) => evictSmallFuel fuel rest t2 (m2 ++ [(key, h)]) mainCap g
        else
          match g.insert h with
          | none => .panicked
          | some g2 => .ok (rest, tableRemove t h key, m, g2) := rfl

theorem evictSmallFuel_succ_panic {fuel : Nat} {key : K} {h : HashValue}
    {rest : List (K × HashValue)} {t : Table K V} {m : List (K × HashValue)}
    {mainCap : Nat} {g : GhostFIFOCache}
    (hfind : findTable t h key = none) :
    evictSmallFuel (fuel + 1) ((key, h) :: rest) t m mainCap g = .panicked := by
  rw [evictSmallFuel_succ, hfind]

theorem evictSmallFuel_succ_promote {fuel : Nat} {key : K} {h : HashValue}
    {rest : List (K × HashValue)} {t t2 : Table K V} {m m2 : List (K × HashValue)}
    {mainCap : Nat} {g : GhostFIFOCache} {b : Bucket K V}
    (hfind : findTable t h key = some b) (hpos : 0 < b.freq - 1)
    (hstep : (if m.length = mainCap
              then evictMain
                (tableModify h key (fun b2 => { b2 with freq := b.freq - 1 }) t) m
              else some
                (tableModify h key (fun b2 => { b2 with freq := b.freq - 1 }) t, m))
             = some (t2, m2)) :
    evictSmallFuel (fuel + 1) ((key, h) :: rest) t m mainCap g =
      evictSmallFuel fuel rest t2 (m2 ++ [(key, h)]) mainCap g := by
  rw [evictSmallFuel_succ, hfind]
  simp only [hpos, if_pos, hstep]

theorem evictSmallFuel_succ_promote_panic {fuel : Nat} {key : K} {h : HashValue}
    {rest : List (K × HashValue)} {t : Table K V} {m : List (K × HashValue)}
    {mainCap : Nat} {g : GhostFIFOCache} {b : Bucket K V}
    (hfind : findTable t h key = some b) (hpos : 0 < b.freq - 1)
    (hstep : (if m.length = mainCap
              then evictMain
                (tableModify h key (fun b2 => { b2 with freq := b.freq - 1 }) t) m
              else some
                (tableModify h key (fun b2 => { b2 with freq := b.freq - 1 }) t, m))
             = none) :
    evictSmallFuel (fuel + 1) ((key, h) :: rest) t m mainCap g = .panicked := by
  rw [evictSmallFuel_succ, hfind]
  simp only [hpos, if_pos, hstep]

theorem evictSmallFuel_succ_remove {fuel : Nat} {key : K} {h : HashValue}
    {rest : List (K × HashValue)} {t : Table K V} {m : List (K × HashValue)}
    {mainCap : Nat} {g g2 : GhostFIFOCache} {b : Bucket K V}
    (hfind : findTable t h key = some b) (hz : b.freq - 1 = 0)
    (hg : g.insert h = some g2) :
    evictSmallFuel (fuel + 1) ((key, h) :: rest) t m mainCap g =
      .ok (rest, tableRemove t h key, m, g2) := by
  rw [evictSmallFuel_succ, hfind]
  simp [hz, hg]

theorem evictSmallFuel_succ_remove_panic {fuel : Nat} {key : K} {h : HashValue}
    {rest : List (K × HashValue)} {t : Table K V} {m : List (K × HashValue)}
    {mainCap : Nat} {g : GhostFIFOCache} {b : Bucket K V}
    (hfind : findTable t h key = some b) (hz : b.freq - 1 = 0)
    (hg : g.insert h = none) :
    evictSmallFuel (fuel + 1) ((key, h) :: rest) t m mainCap g = .panicked := by
  rw [evictSmallFuel_succ, hfind]
  simp [hz, hg]

theorem evictSmallFuel_not_nofuel :
    ∀ (fuel : Nat) (s : List (K × HashValue)) (t : Table K V)
      (m : List (K × HashValue)) (mainCap : Nat) (g : GhostFIFOCache),
      s.length ≤ fuel → evictSmallFuel fuel s t m mainCap g ≠ .nofuel := by
  intro fuel
  induction fuel with
  | zero =>
    intro s t m mainCap g hlen
    cases s with
    | nil => rw [evictSmallFuel_nil]; simp
    | cons e rest => simp at hlen
  | succ fuel ih =>
    intro s t m mainCap g hlen
    cases s with
    | nil => rw [evictSmallFuel_nil]; simp
    | cons e rest =>
      obtain ⟨key, h⟩ := e
      cases hfind : findTable t h key with
      | none => rw [evictSmallFuel_succ_panic hfind]; simp
      | some b =>
        by_cases hpos : 0 < b.freq - 1
        · cases hstep : (if m.length = mainCap
              then evictMain
                (tableModify h key (fun b2 => { b2 with freq := b.freq - 1 }) t) m
              else some
                (tableModify h key (fun b2 => { b2 with freq := b.freq - 1 }) t, m)) with
          | none => rw [evictSmallFuel_succ_promote_panic hfind hpos hstep]; simp
          | some r =>
            obtain ⟨t2, m2⟩ := r
            rw [evictSmallFuel_succ_promote hfind hpos hstep]
            apply ih
            simp at hlen
            omega
        · cases hg : g.insert h with
          | none =>
            rw [evictSmallFuel_succ_remove_panic hfind (by omega) hg]
            simp
          | some g2 =>
            rw [evictSmallFuel_succ_remove hfind (by omega) hg]
            simp

/-! ### The conditional main eviction inside `evict_small` -/

theorem step_subperm {t1 : Table K V} {m : List (K × HashValue)} {mainCap : Nat}
    {t2 : Table K V} {m2 : List (K × HashValue)}
    (hstep : (if m.length = mainCap then evictMain t1 m else some (t1, m))
      = some (t2, m2)) : m2 <+~ m := by
  by_cases hc : m.length = mainCap
  · rw [if_pos hc] at hstep
    exact evictMainFuel_ok_subperm _ _ _ (evictMain_eq_ok hstep)
  · rw [if_neg hc] at hstep
    cases hstep
    exact List.Subperm.refl _

theorem step_length {t1 : Table K V} {m : List (K × HashValue)} {mainCap : Nat}
    {t2 : Table K V} {m2 : List (K × HashValue)}
    (hstep : (if m.length = mainCap then evictMain t1 m else some (t1, m))
      = some (t2, m2)) :
    (t2 = t1 ∧ m2 = m) ∨ (t2.length + 1 = t1.length ∧ m2.length + 1 = m.length) := by
  by_cases hc : m.length = mainCap
  · rw [if_pos hc] at hstep
    rcases evictMainFuel_ok_length _ _ _ (evictMain_eq_ok hstep) with ⟨h1, h2, h3⟩ | hr
    · exact Or.inl ⟨h2, h3.trans h1.symm⟩
    · exact Or.inr hr
  · rw [if_neg hc] at hstep
    cases hstep
    exact Or.inl ⟨rfl, rfl⟩

theorem step_find_none {t1 : Table K V} {m : List (K × HashValue)} {mainCap : Nat}
    {t2 : Table K V} {m2 : List (K × HashValue)} {h0 : HashValue} {k0 : K}
    (hn : findTable t1 h0 k0 = none)
    (hstep : (if m.length = mainCap then evictMain t1 m else some (t1, m))
      = some (t2, m2)) : findTable t2 h0 k0 = none := by
  by_cases hc : m.length = mainCap
  · rw [if_pos hc] at hstep
    exact evictMainFuel_ok_find_none _ _ _ hn (evictMain_eq_ok hstep)
  · rw [if_neg hc] at hstep
    cases hstep
    exact hn

theorem step_find_outside {t1 : Table K V} {m : List (K × HashValue)} {mainCap : Nat}
    {t2 : Table K V} {m2 : List (K × HashValue)} {h0 : HashValue} {k0 : K}
    (hout : k0 ∉ queueKeys m) (hs : (findTable t1 h0 k0).isSome)
    (hstep : (if m.length = mainCap then evictMain t1 m else some (t1, m))
      = some (t2, m2)) : (findTable t2 h0 k0).isSome := by
  by_cases hc : m.length = mainCap
  · rw [if_pos hc] at hstep
    exact evictMainFuel_ok_find_outside _ _ _ hout hs (evictMain_eq_ok hstep)
  · rw [if_neg hc] at hstep
    cases hstep
    exact hs

theorem step_cover {t1 : Table K V} {m : List (K × HashValue)} {mainCap : Nat}
    {t2 : Table K V} {m2 : List (K × HashValue)}
    (hnd : (queueKeys m).Nodup) (hcov : ∀ p ∈ m, (findTable t1 p.2 p.1).isSome)
    (hstep : (if m.length = mainCap then evictMain t1 m else some (t1, m))
      = some (t2, m2)) : ∀ p ∈ m2, (findTable t2 p.2 p.1).isSome := by
  by_cases hc : m.length = mainCap
  · rw [if_pos hc] at hstep
    exact evictMainFuel_ok_cover _ _ _ hnd hcov (evictMain_eq_ok hstep)
  · rw [if_neg hc] at hstep
    cases hstep
    exact hcov

theorem step_freq {t1 : Table K V} {m : List (K × HashValue)} {mainCap : Nat}
    {t2 : Table K V} {m2 : List (K × HashValue)}
    (hfreq : ∀ e ∈ t1, e.2.freq ≤ 3)
    (hstep : (if m.length = mainCap then evictMain t1 m else some (t1, m))
      = some (t2, m2)) : ∀ e ∈ t2, e.2.freq ≤ 3 := by
  by_cases hc : m.length = mainCap
  · rw [if_pos hc] at hstep
    exact evictMainFuel_ok_freq _ _ _ hfreq (evictMain_eq_ok hstep)
  · rw [if_neg hc] at hstep
    cases hstep
    exact hfreq

theorem step_thash {t1 : Table K V} {m : List (K × HashValue)} {mainCap : Nat}
    {t2 : Table K V} {m2 : List (K × HashValue)} {hashF : K → HashValue}
    (hth : ∀ e ∈ t1, e.1 = hashF e.2.key)
    (hstep : (if m.length = mainCap then evictMain t1 m else some (t1, m))
      = some (t2, m2)) : ∀ e ∈ t2, e.1 = hashF e.2.key := by
  by_cases hc : m.length = mainCap
  · rw [if_pos hc] at hstep
    exact evictMainFuel_ok_thash _ _ _ hth (evictMain_eq_ok hstep)
  · rw [if_neg hc] at hstep
    cases hstep
    exact hth

theorem step_keySublist {t1 : Table K V} {m : List (K × HashValue)} {mainCap : Nat}
    {t2 : Table K V} {m2 : List (K × HashValue)}
    (hstep : (if m.length = mainCap then evictMain t1 m else some (t1, m))
      = some (t2, m2)) :
    (t2.map fun e => e.2.key) <+ (t1.map fun e => e.2.key) := by
  by_cases hc : m.length = mainCap
  · rw [if_pos hc] at hstep
    exact evictMainFuel_ok_keySublist _ _ _ (evictMain_eq_ok hstep)
  · rw [if_neg hc] at hstep
    cases hstep
    exact List.Sublist.refl _

/-! ### Modification-stage helpers -/

theorem findTable_modify_none {t : Table K V} {key : K} {h : HashValue}
    {b : Bucket K V} (hfind : findTable t h key = some b) (n : Nat)
    {h0 : HashValue} {k0 : K} (hn : findTable t h0 k0 = none) :
    findTable (tableModify h key (fun b2 => { b2 with freq := n }) t) h0 k0 = none := by
  by_cases hc : h0 = h ∧ k0 = key
  · rcases hc with ⟨rfl, rfl⟩
    rw [hn] at hfind
    cases hfind
  · rw [findTable_modify_other (f := fun b2 => { b2 with freq := n })
      (fun b2 => rfl) hc]
    exact hn

theorem tableModify_freq_le {t : Table K V} {key : K} {h : HashValue} {n : Nat}
    (hfreq : ∀ e ∈ t, e.2.freq ≤ 3) (hn : n ≤ 3) :
    ∀ e ∈ tableModify h key (fun b2 => { b2 with freq := n }) t, e.2.freq ≤ 3 := by
  intro e2 he2
  rcases tableModify_mem he2 with hm | ⟨e0, he0, rfl⟩
  · exact hfreq _ hm
  · exact hn

theorem tableModify_thash {t : Table K V} {key : K} {h : HashValue} {n : Nat}
    {hashF : K → HashValue} (hth : ∀ e ∈ t, e.1 = hashF e.2.key) :
    ∀ e ∈ tableModify h key (fun b2 => { b2 with freq := n }) t,
      e.1 = hashF e.2.key := by
  intro e2 he2
  rcases tableModify_mem he2 with hm | ⟨e0, he0, rfl⟩
  · exact hth _ hm
  · show e0.1 = hashF (e0.2.key)
    exact hth e0 he0

/-! ### Properties of a completed small eviction -/

theorem evictSmallFuel_ok_count :
    ∀ (fuel : Nat) (s : List (K × HashValue)) (t : Table K V)
      (m : List (K × HashValue)) (mainCap : Nat) (g : GhostFIFOCache)
      {s' : List (K × HashValue)} {t' : Table K V} {m' : List (K × HashValue)}
      {g' : GhostFIFOCache},
      t.length = s.length + m.length →
      evictSmallFuel fuel s t m mainCap g = .ok (s', t', m', g') →
      t'.length = s'.length + m'.length := by
  intro fuel
  induction fuel with
  | zero =>
    intro s t m mainCap g s' t' m' g' hcount he
    cases s with
    | nil =>
      rw [evictSmallFuel_nil] at he
      cases he
      simpa using hcount
    | cons e rest => rw [evictSmallFuel_zero_cons] at he; cases he
  | succ fuel ih =>
    intro s t m mainCap g s' t' m' g' hcount he
    cases s with
    | nil =>
      rw [evictSmallFuel_nil] at he
      cases he
      simpa using hcount
    | cons e rest =>
      obtain ⟨key, h⟩ := e
      rw [List.length_cons] at hcount
      cases hfind : findTable t h key with
      | none => rw [evictSmallFuel_succ_panic hfind] at he; cases he
      | some b =>
        by_cases hpos : 0 < b.freq - 1
        · cases hstep : (if m.length = mainCap
              then evictMain
                (tableModify h key (fun b2 => { b2 with freq := b.freq - 1 }) t) m
              else some
                (tableModify h key (fun b2 => { b2 with freq := b.freq - 1 }) t, m)) with
          | none => rw [evictSmallFuel_succ_promote_panic hfind hpos hstep] at he; cases he
          | some r =>
            obtain ⟨t2, m2⟩ := r
            rw [evictSmallFuel_succ_promote hfind hpos hstep] at he
            refine ih _ _ _ _ _ ?_ he
            have hmod := tableModify_length h key
              (fun b2 => { b2 with freq := b.freq - 1 }) t
            rcases step_length hstep with ⟨rfl, rfl⟩ | ⟨h1, h2⟩ <;>
              simp only [List.length_append, List.length_cons, List.length_nil] <;>
              omega
        · cases hg : g.insert h with
          | none =>
            rw [evictSmallFuel_succ_remove_panic hfind (by omega) hg] at he
            cases he
          | some g2 =>
            rw [evictSmallFuel_succ_remove hfind (by omega) hg] at he
            cases he
            have := tableRemove_length hfind
            omega

theorem evictSmallFuel_ok_slen :
    ∀ (fuel : Nat) (s : List (K × HashValue)) (t : Table K V)
      (m : List (K × HashValue)) (mainCap : Nat) (g : GhostFIFOCache)
      {s' : List (K × HashValue)} {t' : Table K V} {m' : List (K × HashValue)}
      {g' : GhostFIFOCache},
      evictSmallFuel fuel s t m mainCap g = .ok (s', t', m', g') →
      s'.length ≤ s.length ∧ (s ≠ [] → s'.length < s.length) := by
  intro fuel
  induction fuel with
  | zero =>
    intro s t m mainCap g s' t' m' g' he
    cases s with
    | nil =>
      rw [evictSmallFuel_nil] at he
      cases he
      exact ⟨Nat.le_refl _, fun hc => absurd rfl hc⟩
    | cons e rest => rw [evictSmallFuel_zero_cons] at he; cases he
  | succ fuel ih =>
    intro s t m mainCap g s' t' m' g' he
    cases s with
    | nil =>
      rw [evictSmallFuel_nil] at he
      cases he
      exact ⟨Nat.le_refl _, fun hc => absurd rfl hc⟩
    | cons e rest =>
      obtain ⟨key, h⟩ := e
      cases hfind : findTable t h key with
      | none => rw [evictSmallFuel_succ_panic hfind] at he; cases he
      | some b =>
        by_cases hpos : 0 < b.freq - 1
        · cases hstep : (if m.length = mainCap
              then evictMain
                (tableModify h key (fun b2 => { b2 with freq := b.freq - 1 }) t) m
              else some
                (tableModify h key (fun b2 => { b2 with freq := b.freq - 1 }) t, m)) with
          | none => rw [evictSmallFuel_succ_promote_panic hfind hpos hstep] at he; cases he
          | some r =>
            obtain ⟨t2, m2⟩ := r
            rw [evictSmallFuel_succ_promote hfind hpos hstep] at he
            have := (ih _ _ _ _ _ he).1
            rw [List.length_cons]
            exact ⟨Nat.le_succ_of_le this, fun _ => Nat.lt_succ_of_le this⟩
        · cases hg : g.insert h with
          | none =>
            rw [evictSmallFuel_succ_remove_panic hfind (by omega) hg] at he
            cases he
          | some g2 =>
            rw [evictSmallFuel_succ_remove hfind (by omega) hg] at he
            cases he
            rw [List.length_cons]
            exact ⟨Nat.le_succ _, fun _ => Nat.lt_succ_self _⟩

theorem evictSmallFuel_ok_subperm :
    ∀ (fuel : Nat) (s : List (K × HashValue)) (t : Table K V)
      (m : List (K × HashValue)) (mainCap : Nat) (g : GhostFIFOCache)
      {s' : List (K × HashValue)} {t' : Table K V} {m' : List (K × HashValue)}
      {g' : GhostFIFOCache},
      evictSmallFuel fuel s t m mainCap g = .ok (s', t', m', g') →
      (s' ++ m') <+~ (s ++ m) := by
  intro fuel
  induction fuel with
  | zero =>
    intro s t m mainCap g s' t' m' g' he
    cases s with
    | nil =>
      rw [evictSmallFuel_nil] at he
      cases he
      exact List.Subperm.refl _
    | cons e rest => rw [evictSmallFuel_zero_cons] at he; cases he
  | succ fuel ih =>
    intro s t m mainCap g s' t' m' g' he
    cases s with
    | nil =>
      rw [evictSmallFuel_nil] at he
      cases he
      exact List.Subperm.refl _
    | cons e rest =>
      obtain ⟨key, h⟩ := e
      cases hfind : findTable t h key with
      | none => rw [evictSmallFuel_succ_panic hfind] at he; cases he
      | some b =>
        by_cases hpos : 0 < b.freq - 1
        · cases hstep : (if m.length = mainCap
              then evictMain
                (tableModify h key (fun b2 => { b2 with freq := b.freq - 1 }) t) m
              else some
                (tableModify h key (fun b2 => { b2 with freq := b.freq - 1 }) t, m)) with
          | none => rw [evictSmallFuel_succ_promote_panic hfind hpos hstep] at he; cases he
          | some r =>
            obtain ⟨t2, m2⟩ := r
            rw [evictSmallFuel_succ_promote hfind hpos hstep] at he
            have h1 := ih _ _ _ _ _ he
            have h2 := subperm_promote_step (key, h) rest m2 m (step_subperm hstep)
            rw [List.cons_append]
            exact h1.trans h2
        · cases hg : g.insert h with
          | none =>
            rw [evictSmallFuel_succ_remove_panic hfind (by omega) hg] at he
            cases he
          | some g2 =>
            rw [evictSmallFuel_succ_remove hfind (by omega) hg] at he
            cases he
            rw [List.cons_append]
            exact List.Subperm.cons_self

theorem evictSmallFuel_ok_find_none :
    ∀ (fuel : Nat) (s : List (K × HashValue)) (t : Table K V)
      (m : List (K × HashValue)) (mainCap : Nat) (g : GhostFIFOCache)
      {s' : List (K × HashValue)} {t' : Table K V} {m' : List (K × HashValue)}
      {g' : GhostFIFOCache} {h0 : HashValue} {k0 : K},
      findTable t h0 k0 = none →
      evictSmallFuel fuel s t m mainCap g = .ok (s', t', m', g') →
      findTable t' h0 k0 = none := by
  intro fuel
  induction fuel with
  | zero =>
    intro s t m mainCap g s' t' m' g' h0 k0 hn he
    cases s with
    | nil => rw [evictSmallFuel_nil] at he; cases he; exact hn
    | cons e rest => rw [evictSmallFuel_zero_cons] at he; cases he
  | succ fuel ih =>
    intro s t m mainCap g s' t' m' g' h0 k0 hn he
    cases s with
    | nil => rw [evictSmallFuel_nil] at he; cases he; exact hn
    | cons e rest =>
      obtain ⟨key, h⟩ := e
      cases hfind : findTable t h key with
      | none => rw [evictSmallFuel_succ_panic hfind] at he; cases he
      | some b =>
        by_cases hpos : 0 < b.freq - 1
        · cases hstep : (if m.length = mainCap
              then evictMain
                (tableModify h key (fun b2 => { b2 with freq := b.freq - 1 }) t) m
              else some
                (tableModify h key (fun b2 => { b2 with freq := b.freq - 1 }) t, m)) with
          | none => rw [evictSmallFuel_succ_promote_panic hfind hpos hstep] at he; cases he
          | some r =>
            obtain ⟨t2, m2⟩ := r
            rw [evictSmallFuel_succ_promote hfind hpos hstep] at he
            refine ih _ _ _ _ _ ?_ he
            exact step_find_none (findTable_modify_none hfind _ hn) hstep
        · cases hg : g.insert h with
          | none =>
            rw [evictSmallFuel_succ_remove_panic hfind (by omega) hg] at he
            cases he
          | some g2 =>
            rw [evictSmallFuel_succ_remove hfind (by omega) hg] at he
            cases he
            exact findTable_remove_none hn

omit [DecidableEq K] in
theorem queueKeys_append (l₁ l₂ : List (K × HashValue)) :
    queueKeys (l₁ ++ l₂) = queueKeys l₁ ++ queueKeys l₂ := by
  simp [queueKeys]

omit [DecidableEq K] in
theorem queueKeys_cons (e : K × HashValue) (l : List (K × HashValue)) :
    queueKeys (e :: l) = e.1 :: queueKeys l := rfl

omit [DecidableEq K] in
theorem mem_queueKeys_of_mem {p : K × HashValue} {l : List (K × HashValue)}
    (hp : p ∈ l) : p.1 ∈ queueKeys l :=
  List.mem_map_of_mem Prod.fst hp

theorem evictSmallFuel_ok_cover :
    ∀ (fuel : Nat) (s : List (K × HashValue)) (t : Table K V)
      (m : List (K × HashValue)) (mainCap : Nat) (g : GhostFIFOCache)
      {s' : List (K × HashValue)} {t' : Table K V} {m' : List (K × HashValue)}
      {g' : GhostFIFOCache},
      (queueKeys (s ++ m)).Nodup →
      (∀ p ∈ s ++ m, (findTable t p.2 p.1).isSome) →
      evictSmallFuel fuel s t m mainCap g = .ok (s', t', m', g') →
      ∀ p ∈ s' ++ m', (findTable t' p.2 p.1).isSome := by
  intro fuel
  induction fuel with
  | zero =>
    intro s t m mainCap g s' t' m' g' _ hcov he
    cases s with
    | nil => rw [evictSmallFuel_nil] at he; cases he; exact hcov
    | cons e rest => rw [evictSmallFuel_zero_cons] at he; cases he
  | succ fuel ih =>
    intro s t m mainCap g s' t' m' g' hnd hcov he
    cases s with
    | nil => rw [evictSmallFuel_nil] at he; cases he; exact hcov
    | cons e rest =>
      obtain ⟨key, h⟩ := e
      rw [List.cons_append, queueKeys_cons, List.nodup_cons] at hnd
      obtain ⟨hkeyout, hndrm⟩ := hnd
      replace hkeyout : key ∉ queueKeys (rest ++ m) := hkeyout
      have hdisj := (List.nodup_append.1 (by rwa [queueKeys_append] at hndrm))
      have hkey_m : key ∉ queueKeys m := by
        intro hc
        exact hkeyout (by rw [queueKeys_append]; exact List.mem_append_right _ hc)
      cases hfind : findTable t h key with
      | none => rw [evictSmallFuel_succ_panic hfind] at he; cases he
      | some b =>
        by_cases hpos : 0 < b.freq - 1
        · cases hstep : (if m.length = mainCap
              then evictMain
                (tableModify h key (fun b2 => { b2 with freq := b.freq - 1 }) t) m
              else some
                (tableModify h key (fun b2 => { b2 with freq := b.freq - 1 }) t, m)) with
          | none => rw [evictSmallFuel_succ_promote_panic hfind hpos hstep] at he; cases he
          | some r =>
            obtain ⟨t2, m2⟩ := r
            rw [evictSmallFuel_succ_promote hfind hpos hstep] at he
            refine ih _ _ _ _ _ ?_ ?_ he
            · have hsp := subperm_promote_step (key, h) rest m2 m (step_subperm hstep)
              have hsp2 := subperm_map Prod.fst hsp
              have hnodup : (((key, h) :: (rest ++ m)).map Prod.fst).Nodup := by
                show (key :: queueKeys (rest ++ m)).Nodup
                exact List.nodup_cons.2 ⟨hkeyout, hndrm⟩
              exact subperm_of_subperm_nodup hsp2 hnodup
            · intro p hp
              rcases List.mem_append.1 hp with hp | hp
              · have hpm : p.1 ∉ queueKeys m := by
                  intro hc
                  exact hdisj.2.2 (mem_queueKeys_of_mem hp) hc
                refine step_find_outside hpm ?_ hstep
                rw [findTable_modify_isSome
                  (f := fun b2 => { b2 with freq := b.freq - 1 }) (fun b2 => rfl)]
                exact hcov p (List.mem_cons_of_mem _ (List.mem_append_left _ hp))
              · rcases List.mem_append.1 hp with hp | hp
                · refine step_cover hdisj.2.1 ?_ hstep p hp
                  intro q hq
                  rw [findTable_modify_isSome
                    (f := fun b2 => { b2 with freq := b.freq - 1 }) (fun b2 => rfl)]
                  exact hcov q (List.mem_cons_of_mem _ (List.mem_append_right _ hq))
                · simp only [List.mem_singleton] at hp
                  subst hp
                  refine step_find_outside hkey_m ?_ hstep
                  rw [findTable_modify_self
                    (f := fun b2 => { b2 with freq := b.freq - 1 })
                    (fun b2 => rfl), hfind]
                  rfl
        · cases hg : g.insert h with
          | none =>
            rw [evictSmallFuel_succ_remove_panic hfind (by omega) hg] at he
            cases he
          | some g2 =>
            rw [evictSmallFuel_succ_remove hfind (by omega) hg] at he
            cases he
            intro p hp
            have hne : p.1 ≠ key := by
              intro hc
              apply hkeyout
              have hm2 := mem_queueKeys_of_mem hp
              rwa [hc] at hm2
            exact findTable_remove_of_ne hne
              (hcov p (List.mem_cons_of_mem _ hp))

theorem evictSmallFuel_ok_freq :
    ∀ (fuel : Nat) (s : List (K × HashValue)) (t : Table K V)
      (m : List (K × HashValue)) (mainCap : Nat) (g : GhostFIFOCache)
      {s' : List (K × HashValue)} {t' : Table K V} {m' : List (K × HashValue)}
      {g' : GhostFIFOCache},
      (∀ e ∈ t, e.2.freq ≤ 3) →
      evictSmallFuel fuel s t m mainCap g = .ok (s', t', m', g') →
      ∀ e ∈ t', e.2.freq ≤ 3 := by
  intro fuel
  induction fuel with
  | zero =>
    intro s t m mainCap g s' t' m' g' hfreq he
    cases s with
    | nil => rw [evictSmallFuel_nil] at he; cases he; exact hfreq
    | cons e rest => rw [evictSmallFuel_zero_cons] at he; cases he
  | succ fuel ih =>
    intro s t m mainCap g s' t' m' g' hfreq he
    cases s with
    | nil => rw [evictSmallFuel_nil] at he; cases he; exact hfreq
    | cons e rest =>
      obtain ⟨key, h⟩ := e
      cases hfind : findTable t h key with
      | none => rw [evictSmallFuel_succ_panic hfind] at he; cases he
      | some b =>
        have hble : b.freq ≤ 3 := by
          have hm := (findTable_eq_some hfind).2
          simpa using hfreq _ hm
        by_cases hpos : 0 < b.freq - 1
        · cases hstep : (if m.length = mainCap
              then evictMain
                (tableModify h key (fun b2 => { b2 with freq := b.freq - 1 }) t) m
              else some
                (tableModify h key (fun b2 => { b2 with freq := b.freq - 1 }) t, m)) with
          | none => rw [evictSmallFuel_succ_promote_panic hfind hpos hstep] at he; cases he
          | some r =>
            obtain ⟨t2, m2⟩ := r
            rw [evictSmallFuel_succ_promote hfind hpos hstep] at he
            refine ih _ _ _ _ _ ?_ he
            exact step_freq (tableModify_freq_le hfreq (by omega)) hstep
        · cases hg : g.insert h with
          | none =>
            rw [evictSmallFuel_succ_remove_panic hfind (by omega) hg] at he
            cases he
          | some g2 =>
            rw [evictSmallFuel_succ_remove hfind (by omega) hg] at he
            cases he
            exact fun e2 he2 => hfreq _ (tableRemove_subset he2)

theorem evictSmallFuel_ok_thash :
    ∀ (fuel : Nat) (s : List (K × HashValue)) (t : Table K V)
      (m : List (K × HashValue)) (mainCap : Nat) (g : GhostFIFOCache)
      {s' : List (K × HashValue)} {t' : Table K V} {m' : List (K × HashValue)}
      {g' : GhostFIFOCache} {hashF : K → HashValue},
      (∀ e ∈ t, e.1 = hashF e.2.key) →
      evictSmallFuel fuel s t m mainCap g = .ok (s', t', m', g') →
      ∀ e ∈ t', e.1 = hashF e.2.key := by
  intro fuel
  induction fuel with
  | zero =>
    intro s t m mainCap g s' t' m' g' hashF hth he
    cases s with
    | nil => rw [evictSmallFuel_nil] at he; cases he; exact hth
    | cons e rest => rw [evictSmallFuel_zero_cons] at he; cases he
  | succ fuel ih =>
    intro s t m mainCap g s' t' m' g' hashF hth he
    cases s with
    | nil => rw [evictSmallFuel_nil] at he; cases he; exact hth
    | cons e rest =>
      obtain ⟨key, h⟩ := e
      cases hfind : findTable t h key with
      | none => rw [evictSmallFuel_succ_panic hfind] at he; cases he
      | some b =>
        by_cases hpos : 0 < b.freq - 1
        · cases hstep : (if m.length = mainCap
              then evictMain
                (tableModify h key (fun b2 => { b2 with freq := b.freq - 1 }) t) m
              else some
                (tableModify h key (fun b2 => { b2 with freq := b.freq - 1 }) t, m)) with
          | none => rw [evictSmallFuel_succ_promote_panic hfind hpos hstep] at he; cases he
          | some r =>
            obtain ⟨t2, m2⟩ := r
            rw [evictSmallFuel_succ_promote hfind hpos hstep] at he
            refine ih _ _ _ _ _ ?_ he
            exact step_thash (tableModify_thash hth) hstep
        · cases hg : g.insert h with
          | none =>
            rw [evictSmallFuel_succ_remove_panic hfind (by omega) hg] at he
            cases he
          | some g2 =>
            rw [evictSmallFuel_succ_remove hfind (by omega) hg] at he
            cases he
            exact fun e2 he2 => hth _ (tableRemove_subset he2)

theorem evictSmallFuel_ok_keySublist :
    ∀ (fuel : Nat) (s : List (K × HashValue)) (t : Table K V)
      (m : List (K × HashValue)) (mainCap : Nat) (g : GhostFIFOCache)
      {s' : List (K × HashValue)} {t' : Table K V} {m' : List (K × HashValue)}
      {g' : GhostFIFOCache},
      evictSmallFuel fuel s t m mainCap g = .ok (s', t', m', g') →
      (t'.map fun e => e.2.key) <+ (t.map fun e => e.2.key) := by
  intro fuel
  induction fuel with
  | zero =>
    intro s t m mainCap g s' t' m' g' he
    cases s with
    | nil => rw [evictSmallFuel_nil] at he; cases he; exact List.Sublist.refl _
    | cons e rest => rw [evictSmallFuel_zero_cons] at he; cases he
  | succ fuel ih =>
    intro s t m mainCap g s' t' m' g' he
    cases s with
    | nil => rw [evictSmallFuel_nil] at he; cases he; exact List.Sublist.refl _
    | cons e rest =>
      obtain ⟨key, h⟩ := e
      cases hfind : findTable t h key with
      | none => rw [evictSmallFuel_succ_panic hfind] at he; cases he
      | some b =>
        by_cases hpos : 0 < b.freq - 1
        · cases hstep : (if m.length = mainCap
              then evictMain
                (tableModify h key (fun b2 => { b2 with freq := b.freq - 1 }) t) m
              else some
                (tableModify h key (fun b2 => { b2 with freq := b.freq - 1 }) t, m)) with
          | none => rw [evictSmallFuel_succ_promote_panic hfind hpos hstep] at he; cases he
          | some r =>
            obtain ⟨t2, m2⟩ := r
            rw [evictSmallFuel_succ_promote hfind hpos hstep] at he
            have h1 := ih _ _ _ _ _ he
            have h2 := step_keySublist hstep
            rw [tableModify_keys (f := fun b2 => { b2 with freq := b.freq - 1 })
              (fun b2 => rfl)] at h2
            exact h1.trans h2
        · cases hg : g.insert h with
          | none =>
            rw [evictSmallFuel_succ_remove_panic hfind (by omega) hg] at he
            cases he
          | some g2 =>
            rw [evictSmallFuel_succ_remove hfind (by omega) hg] at he
            cases he
            exact (List.eraseP_sublist _).map _

theorem evictSmallFuel_ok_mainLe :
    ∀ (fuel : Nat) (s : List (K × HashValue)) (t : Table K V)
      (m : List (K × HashValue)) (mainCap : Nat) (g : GhostFIFOCache)
      {s' : List (K × HashValue)} {t' : Table K V} {m' : List (K × HashValue)}
      {g' : GhostFIFOCache},
      (s ≠ [] → 0 < mainCap) → m.length ≤ mainCap →
      evictSmallFuel fuel s t m mainCap g = .ok (s', t', m', g') →
      m'.length ≤ mainCap := by
  intro fuel
  induction fuel with
  | zero =>
    intro s t m mainCap g s' t' m' g' _ hle he
    cases s with
    | nil => rw [evictSmallFuel_nil] at he; cases he; exact hle
    | cons e rest => rw [evictSmallFuel_zero_cons] at he; cases he
  | succ fuel ih =>
    intro s t m mainCap g s' t' m' g' hcap hle he
    cases s with
    | nil => rw [evictSmallFuel_nil] at he; cases he; exact hle
    | cons e rest =>
      obtain ⟨key, h⟩ := e
      have hmc : 0 < mainCap := hcap (by simp)
      cases hfind : findTable t h key with
      | none => rw [evictSmallFuel_succ_panic hfind] at he; cases he
      | some b =>
        by_cases hpos : 0 < b.freq - 1
        · cases hstep : (if m.length = mainCap
              then evictMain
                (tableModify h key (fun b2 => { b2 with freq := b.freq - 1 }) t) m
              else some
                (tableModify h key (fun b2 => { b2 with freq := b.freq - 1 }) t, m)) with
          | none => rw [evictSmallFuel_succ_promote_panic hfind hpos hstep] at he; cases he
          | some r =>
            obtain ⟨t2, m2⟩ := r
            rw [evictSmallFuel_succ_promote hfind hpos hstep] at he
            refine ih _ _ _ _ _ (fun _ => hmc) ?_ he
            by_cases hc : m.length = mainCap
            · rw [if_pos hc] at hstep
              rcases evictMainFuel_ok_length _ _ _ (evictMain_eq_ok hstep) with
                ⟨hnil, _, _⟩ | ⟨_, h2⟩
              · exfalso
                rw [hnil] at hc
                simp at hc
                omega
              · simp only [List.length_append, List.length_cons, List.length_nil]
                omega
            · rw [if_neg hc] at hstep
              cases hstep
              simp only [List.length_append, List.length_cons, List.length_nil]
              omega
        · cases hg : g.insert h with
          | none =>
            rw [evictSmallFuel_succ_remove_panic hfind (by omega) hg] at he
            cases he
          | some g2 =>
            rw [evictSmallFuel_succ_remove hfind (by omega) hg] at he
            cases he
            exact hle

theorem evictSmallFuel_ok_ghost :
    ∀ (fuel : Nat) (s : List (K × HashValue)) (t : Table K V)
      (m : List (K × HashValue)) (mainCap : Nat) (g : GhostFIFOCache)
      {s' : List (K × HashValue)} {t' : Table K V} {m' : List (K × HashValue)}
      {g' : GhostFIFOCache},
      GhostInv g →
      evictSmallFuel fuel s t m mainCap g = .ok (s', t', m', g') →
      GhostInv g' ∧ g'.cap = g.cap := by
  intro fuel
  induction fuel with
  | zero =>
    intro s t m mainCap g s' t' m' g' hgi he
    cases s with
    | nil => rw [evictSmallFuel_nil] at he; cases he; exact ⟨hgi, rfl⟩
    | cons e rest => rw [evictSmallFuel_zero_cons] at he; cases he
  | succ fuel ih =>
    intro s t m mainCap g s' t' m' g' hgi he
    cases s with
    | nil => rw [evictSmallFuel_nil] at he; cases he; exact ⟨hgi, rfl⟩
    | cons e rest =>
      obtain ⟨key, h⟩ := e
      cases hfind : findTable t h key with
      | none => rw [evictSmallFuel_succ_panic hfind] at he; cases he
      | some b =>
        by_cases hpos : 0 < b.freq - 1
        · cases hstep : (if m.length = mainCap
              then evictMain
                (tableModify h key (fun b2 => { b2 with freq := b.freq - 1 }) t) m
              else some
                (tableModify h key (fun b2 => { b2 with freq := b.freq - 1 }) t, m)) with
          | none => rw [evictSmallFuel_succ_promote_panic hfind hpos hstep] at he; cases he
          | some r =>
            obtain ⟨t2, m2⟩ := r
            rw [evictSmallFuel_succ_promote hfind hpos hstep] at he
            exact ih _ _ _ _ _ hgi he
        · cases hg : g.insert h with
          | none =>
            rw [evictSmallFuel_succ_remove_panic hfind (by omega) hg] at he
            cases he
          | some g2 =>
            rw [evictSmallFuel_succ_remove hfind (by omega) hg] at he
            cases he
            exact ghostInsert_inv hgi hg

theorem evictSmall_eq_ok {s : List (K × HashValue)} {t : Table K V}
    {m : List (K × HashValue)} {mainCap : Nat} {g : GhostFIFOCache}
    {s' : List (K × HashValue)} {t' : Table K V} {m' : List (K × HashValue)}
    {g' : GhostFIFOCache}
    (he : evictSmall s t m mainCap g = some (s', t', m', g')) :
    evictSmallFuel s.length s t m mainCap g = .ok (s', t', m', g') := by
  unfold evictSmall at he
  cases hr : evictSmallFuel s.length s t m mainCap g with
  | ok r => rw [hr] at he; cases he; rfl
  | panicked => rw [hr] at he; cases he
  | nofuel => rw [hr] at he; cases he

/-! ### Unfolding equations for the public operations -/

theorem get_miss {c : S3FIFO K V} {k : K}
    (hfind : findTable c.table (c.hash k) k = none) : get c k = (none, c) := by
  unfold get
  rw [hfind]

theorem get_hit {c : S3FIFO K V} {k : K} {b : Bucket K V}
    (hfind : findTable c.table (c.hash k) k = some b) :
    get c k = (some b.value,
      { c with table := tableModify (c.hash k) k incrFreq c.table }) := by
  unfold get
  rw [hfind]

theorem getMut_miss {c : S3FIFO K V} {k : K}
    (hfind : findTable c.table (c.hash k) k = none) : getMut c k = (none, c) := by
  unfold getMut
  rw [hfind]

theorem getMut_hit {c : S3FIFO K V} {k : K} {b : Bucket K V}
    (hfind : findTable c.table (c.hash k) k = some b) :
    getMut c k = (some b.value,
      { c with table := tableModify (c.hash k) k incrFreq c.table }) := by
  unfold getMut
  rw [hfind]

theorem put_present {c : S3FIFO K V} {k : K} {v : V} {b : Bucket K V}
    (hfind : findTable c.table (c.hash k) k = some b) :
    put c k v = some (some b.value,
      { c with table := tableModify (c.hash k) k (replaceValue v) c.table }) := by
  unfold put
  rw [hfind]

theorem put_ghost {c : S3FIFO K V} {k : K} {v : V} {t : Table K V}
    {m : List (K × HashValue)}
    (hfind : findTable c.table (c.hash k) k = none)
    (hg : c.ghost_fifo.contains (c.hash k) = true)
    (hstep : (if c.main_fifo.length = c.main_cap
              then evictMain c.table c.main_fifo
              else some (c.table, c.main_fifo)) = some (t, m)) :
    put c k v = some (none, { c with
      table := tableInsert t (c.hash k) ⟨k, v, 0⟩
      main_fifo := m ++ [(k, c.hash k)] }) := by
  unfold put
  rw [hfind, if_pos hg, hstep]

theorem put_ghost_panic {c : S3FIFO K V} {k : K} {v : V}
    (hfind : findTable c.table (c.hash k) k = none)
    (hg : c.ghost_fifo.contains (c.hash k) = true)
    (hstep : (if c.main_fifo.length = c.main_cap
              then evictMain c.table c.main_fifo
              else some (c.table, c.main_fifo)) = none) :
    put c k v = none := by
  unfold put
  rw [hfind, if_pos hg, hstep]

theorem put_small {c : S3FIFO K V} {k : K} {v : V}
    {s : List (K × HashValue)} {t : Table K V} {m : List (K × HashValue)}
    {g : GhostFIFOCache}
    (hfind : findTable c.table (c.hash k) k = none)
    (hg : c.ghost_fifo.contains (c.hash k) = false)
    (hstep : (if c.small_fifo.length = c.small_cap
              then evictSmall c.small_fifo c.table c.main_fifo c.main_cap c.ghost_fifo
              else some (c.small_fifo, c.table, c.main_fifo, c.ghost_fifo))
             = some (s, t, m, g))
    (hs1 : ¬s.length = c.small_cap)
    (hs2 : ¬(findTable t (c.hash k) k).isSome = true) :
    put c k v = some (none, { c with
      small_fifo := s ++ [(k, c.hash k)]
      table := tableInsert t (c.hash k) ⟨k, v, 0⟩
      main_fifo := m
      ghost_fifo := g }) := by
  unfold put
  have hgp : ¬c.ghost_fifo.contains (c.hash k) = true := by simp [hg]
  rw [hfind, if_neg hgp, hstep]
  show (if s.length = c.small_cap then none
        else if (findTable t (c.hash k) k).isSome = true then none
        else some (none, { c with
          small_fifo := s ++ [(k, c.hash k)]
          table := tableInsert t (c.hash k) ⟨k, v, 0⟩
          main_fifo := m
          ghost_fifo := g })) = _
  rw [if_neg hs1, if_neg hs2]

theorem put_small_assert_panic {c : S3FIFO K V} {k : K} {v : V}
    {s : List (K × HashValue)} {t : Table K V} {m : List (K × HashValue)}
    {g : GhostFIFOCache}
    (hfind : findTable c.table (c.hash k) k = none)
    (hg : c.ghost_fifo.contains (c.hash k) = false)
    (hstep : (if c.small_fifo.length = c.small_cap
              then evictSmall c.small_fifo c.table c.main_fifo c.main_cap c.ghost_fifo
              else some (c.small_fifo, c.table, c.main_fifo, c.ghost_fifo))
             = some (s, t, m, g))
    (hs1 : s.length = c.small_cap) :
    put c k v = none := by
  unfold put
  have hgp : ¬c.ghost_fifo.contains (c.hash k) = true := by simp [hg]
  rw [hfind, if_neg hgp, hstep]
  show (if s.length = c.small_cap then none
        else if (findTable t (c.hash k) k).isSome = true then none
        else some (none, { c with
          small_fifo := s ++ [(k, c.hash k)]
          table := tableInsert t (c.hash k) ⟨k, v, 0⟩
          main_fifo := m
          ghost_fifo := g })) = _
  rw [if_pos hs1]

theorem put_small_find_panic {c : S3FIFO K V} {k : K} {v : V}
    {s : List (K × HashValue)} {t : Table K V} {m : List (K × HashValue)}
    {g : GhostFIFOCache}
    (hfind : findTable c.table (c.hash k) k = none)
    (hg : c.ghost_fifo.contains (c.hash k) = false)
    (hstep : (if c.small_fifo.length = c.small_cap
              then evictSmall c.small_fifo c.table c.main_fifo c.main_cap c.ghost_fifo
              else some (c.small_fifo, c.table, c.main_fifo, c.ghost_fifo))
             = some (s, t, m, g))
    (hs1 : ¬s.length = c.small_cap)
    (hs2 : (findTable t (c.hash k) k).isSome = true) :
    put c k v = none := by
  unfold put
  have hgp : ¬c.ghost_fifo.contains (c.hash k) = true := by simp [hg]
  rw [hfind, if_neg hgp, hstep]
  show (if s.length = c.small_cap then none
        else if (findTable t (c.hash k) k).isSome = true then none
        else some (none, { c with
          small_fifo := s ++ [(k, c.hash k)]
          table := tableInsert t (c.hash k) ⟨k, v, 0⟩
          main_fifo := m
          ghost_fifo := g })) = _
  rw [if_neg hs1, if_pos hs2]

theorem put_small_panic {c : S3FIFO K V} {k : K} {v : V}
    (hfind : findTable c.table (c.hash k) k = none)
    (hg : c.ghost_fifo.contains (c.hash k) = false)
    (hstep : (if c.small_fifo.length = c.small_cap
              then evictSmall c.small_fifo c.table c.main_fifo c.main_cap c.ghost_fifo
              else some (c.small_fifo, c.table, c.main_fifo, c.ghost_fifo))
             = none) :
    put c k v = none := by
  unfold put
  have hgp : ¬c.ghost_fifo.contains (c.hash k) = true := by simp [hg]
  rw [hfind, if_neg hgp, hstep]

/-! ### The inductive invariant -/

/-- The data-structure invariant maintained by every public operation:
the counting and disjointness facts of the specification together with the
bookkeeping facts (hash consistency, ghost well-formedness, fixed capacity
shape) needed to push them through `put`. -/
structure Inv (c : S3FIFO K V) : Prop where
  count : c.table.length = c.small_fifo.length + c.main_fifo.length
  qnodup : (queueKeys (c.small_fifo ++ c.main_fifo)).Nodup
  cover : ∀ p ∈ c.small_fifo ++ c.main_fifo, (findTable c.table p.2 p.1).isSome
  qhash : ∀ p ∈ c.small_fifo ++ c.main_fifo, p.2 = c.hash p.1
  tnodup : (c.table.map fun e => e.2.key).Nodup
  thash : ∀ e ∈ c.table, e.1 = c.hash e.2.key
  freqLe : ∀ e ∈ c.table, e.2.freq ≤ 3
  smallLe : c.small_fifo.length ≤ c.small_cap
  mainLe : c.main_fifo.length ≤ c.main_cap
  ghost : GhostInv c.ghost_fifo
  capg : c.ghost_fifo.cap = c.main_cap
  caps : ∃ cap, c.small_cap = cap / 10 ∧ c.main_cap = cap * 9 / 10

theorem main_cap_pos {c : S3FIFO K V} (hi : Inv c) (hs : 0 < c.small_cap) :
    0 < c.main_cap := by
  rcases hi.caps with ⟨cap, h1, h2⟩
  have h10 : 10 ≤ cap := (Nat.one_le_div_iff (by norm_num)).1 (h1 ▸ hs)
  have : 10 ≤ cap * 9 := by omega
  rw [h2]
  exact (Nat.one_le_div_iff (by norm_num)).2 this

theorem key_not_in_queue {t : Table K V} {q : List (K × HashValue)}
    {hashF : K → HashValue} {k : K}
    (hq : ∀ p ∈ q, p.2 = hashF p.1)
    (hcov : ∀ p ∈ q, (findTable t p.2 p.1).isSome)
    (hn : ¬(findTable t (hashF k) k).isSome = true) : k ∉ queueKeys q := by
  intro hc
  rcases List.mem_map.1 hc with ⟨p, hp, hp1⟩
  apply hn
  have h2 := hq p hp
  have h3 := hcov p hp
  rw [hp1] at h2
  rw [h2, hp1] at h3
  exact h3

theorem key_not_in_tableKeys {t : Table K V} {hashF : K → HashValue} {k : K}
    (hth : ∀ e ∈ t, e.1 = hashF e.2.key)
    (hn : ¬(findTable t (hashF k) k).isSome = true) :
    k ∉ t.map (fun e => e.2.key) := by
  intro hc
  rcases List.mem_map.1 hc with ⟨e, he, hek⟩
  apply hn
  exact findTable_isSome_iff.2 ⟨e, he, by rw [hth e he, hek], hek⟩

theorem nodup_snoc {α : Type} {l : List α} {a : α} (hnd : l.Nodup)
    (ha : a ∉ l) : (l ++ [a]).Nodup :=
  (List.perm_append_singleton a l).nodup_iff.2 (List.nodup_cons.2 ⟨ha, hnd⟩)

/-- A hit-style table modification (frequency bump, value replacement)
preserves the whole invariant: only one bucket's non-key fields change. -/
theorem inv_modify {c : S3FIFO K V} (k : K) (hi : Inv c)
    {f : Bucket K V → Bucket K V} (hkey : ∀ b, (f b).key = b.key)
    (hfreqf : ∀ b, b.freq ≤ 3 → (f b).freq ≤ 3) :
    Inv { c with table := tableModify (c.hash k) k f c.table } := by
  refine ⟨?_, hi.qnodup, ?_, hi.qhash, ?_, ?_, ?_, hi.smallLe, hi.mainLe,
    hi.ghost, hi.capg, hi.caps⟩
  · show (tableModify (c.hash k) k f c.table).length = _
    rw [tableModify_length]
    exact hi.count
  · intro p hp
    show (findTable (tableModify (c.hash k) k f c.table) p.2 p.1).isSome
    rw [findTable_modify_isSome hkey]
    exact hi.cover p hp
  · show ((tableModify (c.hash k) k f c.table).map fun e => e.2.key).Nodup
    rw [tableModify_keys hkey]
    exact hi.tnodup
  · intro e2 he2
    rcases tableModify_mem he2 with hm | ⟨e0, he0, rfl⟩
    · exact hi.thash _ hm
    · show e0.1 = c.hash ((f e0.2).key)
      rw [hkey]
      exact hi.thash e0 he0
  · intro e2 he2
    rcases tableModify_mem he2 with hm | ⟨e0, he0, rfl⟩
    · exact hi.freqLe _ hm
    · exact hfreqf _ (hi.freqLe e0 he0)

omit [DecidableEq K] in
theorem incrFreq_freq_le (b : Bucket K V) (hb : b.freq ≤ 3) :
    (incrFreq b).freq ≤ 3 := by
  show (b.freq + 1) % 4 ≤ 3
  have := Nat.mod_lt (b.freq + 1) (y := 4) (by omega)
  omega

theorem replaceValue_freq_le (v : V) (b : Bucket K V) (hb : b.freq ≤ 3) :
    (replaceValue v b).freq ≤ 3 := incrFreq_freq_le b hb

/-- Every reachable cache state satisfies the invariant. -/
theorem reachable_inv : ∀ {c : S3FIFO K V}, Reachable c → Inv c := by
  intro c hr
  induction hr with
  | init cap hash =>
    refine ⟨rfl, List.nodup_nil, ?_, ?_, List.nodup_nil, ?_, ?_,
      Nat.zero_le _, Nat.zero_le _, ⟨rfl, List.nodup_nil, Nat.zero_le _⟩,
      rfl, ⟨cap, rfl, rfl⟩⟩ <;> intro p hp <;> simp [withHasher] at hp
  | @get c k hprev ih =>
    cases hfind : findTable c.table (c.hash k) k with
    | none => rw [get_miss hfind]; exact ih
    | some b =>
      rw [get_hit hfind]
      exact inv_modify k ih (fun b2 => rfl) incrFreq_freq_le
  | @getMut c k hprev ih =>
    cases hfind : findTable c.table (c.hash k) k with
    | none => rw [getMut_miss hfind]; exact ih
    | some b =>
      rw [getMut_hit hfind]
      exact inv_modify k ih (fun b2 => rfl) incrFreq_freq_le
  | @put c r c' k v hprev heq ih =>
    cases hfind : findTable c.table (c.hash k) k with
    | some b =>
      rw [put_present hfind] at heq
      cases heq
      exact inv_modify k ih (fun b2 => rfl) (replaceValue_freq_le v)
    | none =>
      by_cases hg : c.ghost_fifo.contains (c.hash k) = true
      · -- ghost hit: admit directly into main
        cases hstep : (if c.main_fifo.length = c.main_cap
            then evictMain c.table c.main_fifo
            else some (c.table, c.main_fifo)) with
        | none => rw [put_ghost_panic hfind hg hstep] at heq; cases heq
        | some r2 =>
          obtain ⟨t, m⟩ := r2
          rw [put_ghost hfind hg hstep] at heq
          cases heq
          have hfindt : findTable t (c.hash k) k = none :=
            step_find_none hfind hstep
          have hsub : m <+~ c.main_fifo := step_subperm hstep
          have htk : (t.map fun e => e.2.key) <+ (c.table.map fun e => e.2.key) :=
            step_keySublist hstep
          have hth : ∀ e ∈ t, e.1 = c.hash e.2.key := step_thash ih.thash hstep
          have hfr : ∀ e ∈ t, e.2.freq ≤ 3 := step_freq ih.freqLe hstep
          have hndsm0 := ih.qnodup
          rw [queueKeys_append, List.nodup_append] at hndsm0
          have hcovm' : ∀ p ∈ m, (findTable t p.2 p.1).isSome :=
            step_cover hndsm0.2.1
              (fun p hp => ih.cover p (List.mem_append_right _ hp)) hstep
          have hcovs' : ∀ p ∈ c.small_fifo, (findTable t p.2 p.1).isSome := by
            intro p hp
            refine step_find_outside ?_
              (ih.cover p (List.mem_append_left _ hp)) hstep
            exact fun hc => hndsm0.2.2 (mem_queueKeys_of_mem hp) hc
          have hcov_sm : ∀ p ∈ c.small_fifo ++ m, (findTable t p.2 p.1).isSome := by
            intro p hp
            rcases List.mem_append.1 hp with hp | hp
            · exact hcovs' p hp
            · exact hcovm' p hp
          have hqh_sm : ∀ p ∈ c.small_fifo ++ m, p.2 = c.hash p.1 := by
            intro p hp
            rcases List.mem_append.1 hp with hp | hp
            · exact ih.qhash p (List.mem_append_left _ hp)
            · exact ih.qhash p (List.mem_append_right _ (hsub.subset hp))
          have hnotSome : ¬(findTable t (c.hash k) k).isSome = true := by
            rw [hfindt]
            simp
          have hfresh : k ∉ queueKeys (c.small_fifo ++ m) :=
            key_not_in_queue hqh_sm hcov_sm hnotSome
          have hnd_sm : (queueKeys (c.small_fifo ++ m)).Nodup :=
            subperm_of_subperm_nodup
              (subperm_map Prod.fst (subperm_append_compat c.small_fifo hsub))
              ih.qnodup
          have hmc : 0 < c.main_cap := by
            have h1 := ghost_contains_length ih.ghost hg
            have h2 := ih.ghost.lecap
            have h3 := ih.capg
            omega
          have hcount' : t.length = c.small_fifo.length + m.length := by
            rcases step_length hstep with ⟨rfl, rfl⟩ | ⟨h1, h2⟩
            · exact ih.count
            · have := ih.count
              omega
          have hassoc : c.small_fifo ++ (m ++ [(k, c.hash k)])
              = (c.small_fifo ++ m) ++ [(k, c.hash k)] :=
            (List.append_assoc _ _ _).symm
          refine ⟨?_, ?_, ?_, ?_, ?_, ?_, ?_, ih.smallLe, ?_, ih.ghost,
            ih.capg, ih.caps⟩
          · show (tableInsert t (c.hash k) ⟨k, v, 0⟩).length
              = c.small_fifo.length + (m ++ [(k, c.hash k)]).length
            simp only [tableInsert, List.length_append, List.length_cons,
              List.length_nil]
            omega
          · show (queueKeys (c.small_fifo ++ (m ++ [(k, c.hash k)]))).Nodup
            rw [hassoc, queueKeys_append]
            exact nodup_snoc hnd_sm hfresh
          · intro p hp
            show (findTable (tableInsert t (c.hash k) ⟨k, v, 0⟩) p.2 p.1).isSome
            rw [hassoc] at hp
            rcases List.mem_append.1 hp with hp | hp
            · rw [findTable_insert_of_isSome (hcov_sm p hp)]
              exact hcov_sm p hp
            · simp only [List.mem_singleton] at hp
              subst hp
              rw [findTable_insert_self hfindt rfl]
              rfl
          · intro p hp
            rw [hassoc] at hp
            rcases List.mem_append.1 hp with hp | hp
            · exact hqh_sm p hp
            · simp only [List.mem_singleton] at hp
              subst hp
              rfl
          · show ((tableInsert t (c.hash k) ⟨k, v, 0⟩).map fun e => e.2.key).Nodup
            simp only [tableInsert, List.map_append, List.map_cons, List.map_nil]
            exact nodup_snoc (htk.nodup ih.tnodup)
              (key_not_in_tableKeys hth hnotSome)
          · intro e2 he2
            rcases List.mem_append.1 he2 with hm2 | hm2
            · exact hth _ hm2
            · simp only [List.mem_singleton] at hm2
              subst hm2
              rfl
          · intro e2 he2
            rcases List.mem_append.1 he2 with hm2 | hm2
            · exact hfr _ hm2
            · simp only [List.mem_singleton] at hm2
              subst hm2
              exact Nat.zero_le _
          · show (m ++ [(k, c.hash k)]).length ≤ c.main_cap
            by_cases hfull : c.main_fifo.length = c.main_cap
            · rw [if_pos hfull] at hstep
              rcases evictMainFuel_ok_length _ _ _ (evictMain_eq_ok hstep) with
                ⟨hnil, _, _⟩ | ⟨_, h2⟩
              · exfalso
                rw [hnil] at hfull
                simp at hfull
                omega
              · simp only [List.length_append, List.length_cons, List.length_nil]
                omega
            · rw [if_neg hfull] at hstep
              cases hstep
              have := ih.mainLe
              simp only [List.length_append, List.length_cons, List.length_nil]
              omega
      · -- ghost miss: admit into small
        have hg2 : c.ghost_fifo.contains (c.hash k) = false := by
          revert hg
          cases c.ghost_fifo.contains (c.hash k) <;> simp
        cases hstep : (if c.small_fifo.length = c.small_cap
            then evictSmall c.small_fifo c.table c.main_fifo c.main_cap c.ghost_fifo
            else some (c.small_fifo, c.table, c.main_fifo, c.ghost_fifo)) with
        | none => rw [put_small_panic hfind hg2 hstep] at heq; cases heq
        | some r2 =>
          obtain ⟨s, t, m, g⟩ := r2
          by_cases hs1 : s.length = c.small_cap
          · rw [put_small_assert_panic hfind hg2 hstep hs1] at heq
            cases heq
          · by_cases hs2 : (findTable t (c.hash k) k).isSome = true
            · rw [put_small_find_panic hfind hg2 hstep hs1 hs2] at heq
              cases heq
            · rw [put_small hfind hg2 hstep hs1 hs2] at heq
              cases heq
              obtain ⟨hcount', hnd', hcov', hsubq, htk, hth, hfr, hslen,
                  hmle, hgi, hgcap⟩ :
                  t.length = s.length + m.length ∧
                  (queueKeys (s ++ m)).Nodup ∧
                  (∀ p ∈ s ++ m, (findTable t p.2 p.1).isSome) ∧
                  ((s ++ m) <+~ (c.small_fifo ++ c.main_fifo)) ∧
                  ((t.map fun e => e.2.key) <+ (c.table.map fun e => e.2.key)) ∧
                  (∀ e ∈ t, e.1 = c.hash e.2.key) ∧
                  (∀ e ∈ t, e.2.freq ≤ 3) ∧
                  s.length ≤ c.small_fifo.length ∧
                  m.length ≤ c.main_cap ∧
                  GhostInv g ∧ g.cap = c.ghost_fifo.cap := by
                by_cases hsf : c.small_fifo.length = c.small_cap
                · rw [if_pos hsf] at hstep
                  have hok := evictSmall_eq_ok hstep
                  have hmcap : c.small_fifo ≠ [] → 0 < c.main_cap := by
                    intro hne
                    apply main_cap_pos ih
                    have hpos : 0 < c.small_fifo.length := List.length_pos.2 hne
                    omega
                  refine ⟨evictSmallFuel_ok_count _ _ _ _ _ _ ih.count hok,
                    subperm_of_subperm_nodup
                      (subperm_map Prod.fst
                        (evictSmallFuel_ok_subperm _ _ _ _ _ _ hok)) ih.qnodup,
                    evictSmallFuel_ok_cover _ _ _ _ _ _ ih.qnodup ih.cover hok,
                    evictSmallFuel_ok_subperm _ _ _ _ _ _ hok,
                    evictSmallFuel_ok_keySublist _ _ _ _ _ _ hok,
                    evictSmallFuel_ok_thash _ _ _ _ _ _ ih.thash hok,
                    evictSmallFuel_ok_freq _ _ _ _ _ _ ih.freqLe hok,
                    (evictSmallFuel_ok_slen _ _ _ _ _ _ hok).1,
                    evictSmallFuel_ok_mainLe _ _ _ _ _ _ hmcap ih.mainLe hok,
                    (evictSmallFuel_ok_ghost _ _ _ _ _ _ ih.ghost hok).1,
                    (evictSmallFuel_ok_ghost _ _ _ _ _ _ ih.ghost hok).2⟩
                · rw [if_neg hsf] at hstep
                  cases hstep
                  exact ⟨ih.count, ih.qnodup, ih.cover, List.Subperm.refl _,
                    List.Sublist.refl _, ih.thash, ih.freqLe, Nat.le_refl _,
                    ih.mainLe, ih.ghost, rfl⟩
              have hqh' : ∀ p ∈ s ++ m, p.2 = c.hash p.1 :=
                fun p hp => ih.qhash p (hsubq.subset hp)
              have hfresh : k ∉ queueKeys (s ++ m) :=
                key_not_in_queue hqh' hcov' hs2
              have hknott : k ∉ t.map (fun e => e.2.key) :=
                key_not_in_tableKeys hth hs2
              have hp1 : (s ++ [(k, c.hash k)]) ++ m ~ (k, c.hash k) :: (s ++ m) := by
                calc (s ++ [(k, c.hash k)]) ++ m
                    ~ ((k, c.hash k) :: s) ++ m :=
                      List.Perm.append_right m (List.perm_append_singleton _ _)
                  _ = (k, c.hash k) :: (s ++ m) := rfl
              refine ⟨?_, ?_, ?_, ?_, ?_, ?_, ?_, ?_, hmle, hgi,
                hgcap.trans ih.capg, ih.caps⟩
              · show (tableInsert t (c.hash k) ⟨k, v, 0⟩).length
                  = (s ++ [(k, c.hash k)]).length + m.length
                simp only [tableInsert, List.length_append, List.length_cons,
                  List.length_nil]
                omega
              · show (queueKeys ((s ++ [(k, c.hash k)]) ++ m)).Nodup
                refine (hp1.map Prod.fst).nodup_iff.2 ?_
                exact List.nodup_cons.2 ⟨hfresh, hnd'⟩
              · intro p hp
                show (findTable (tableInsert t (c.hash k) ⟨k, v, 0⟩) p.2 p.1).isSome
                rcases List.mem_cons.1 (hp1.subset hp) with hp2 | hp2
                · subst hp2
                  have hnone : findTable t (c.hash k) k = none :=
                    Option.not_isSome_iff_eq_none.1 (by simpa using hs2)
                  rw [findTable_insert_self hnone rfl]
                  rfl
                · rw [findTable_insert_of_isSome (hcov' p hp2)]
                  exact hcov' p hp2
              · intro p hp
                rcases List.mem_cons.1 (hp1.subset hp) with hp2 | hp2
                · subst hp2
                  rfl
                · exact hqh' p hp2
              · show ((tableInsert t (c.hash k) ⟨k, v, 0⟩).map fun e => e.2.key).Nodup
                simp only [tableInsert, List.map_append, List.map_cons,
                  List.map_nil]
                exact nodup_snoc (htk.nodup ih.tnodup) hknott
              · intro e2 he2
                rcases List.mem_append.1 he2 with hm2 | hm2
                · exact hth _ hm2
                · simp only [List.mem_singleton] at hm2
                  subst hm2
                  rfl
              · intro e2 he2
                rcases List.mem_append.1 he2 with hm2 | hm2
                · exact hfr _ hm2
                · simp only [List.mem_singleton] at hm2
                  subst hm2
                  exact Nat.zero_le _
              · show (s ++ [(k, c.hash k)]).length ≤ c.small_cap
                have := ih.smallLe
                simp only [List.length_append, List.length_cons, List.length_nil]
                omega

/-! ### Concrete states for the specification's scenarios (capacity 10,
identity hash on natural-number keys, so `S = 1`, `M = G = 9`) -/

/-- Identity hash on natural-number keys, standing in for the caller-supplied
hasher in concrete scenarios. -/
def natHash : Nat → HashValue := fun n => n

/-- An empty capacity-10 cache over `Nat` keys and values. -/
def cache10 : S3FIFO Nat Nat := withHasher 10 natHash

/-- `cache10` after `put 1 10`: key 1 in the small queue with `freq = 0`. -/
def cache10a : S3FIFO Nat Nat :=
  { hash := natHash
    small_fifo := [(1, 1)]
    small_cap := 1
    main_fifo := []
    main_cap := 9
    ghost_fifo := { table := [], ring_buffer := [], cap := 9 }
    table := [(1, ⟨1, 10, 0⟩)] }

/-- `cache10a` after `put 2 20`: key 1 was evicted cold, its hash in Ghost. -/
def cache10b : S3FIFO Nat Nat :=
  { hash := natHash
    small_fifo := [(2, 2)]
    small_cap := 1
    main_fifo := []
    main_cap := 9
    ghost_fifo := { table := [1], ring_buffer := [1], cap := 9 }
    table := [(2, ⟨2, 20, 0⟩)] }

/-! ### The claims -/

/-- C1. The claim says a hit saturates the frequency at 3
(`freq' = min (3, freq + 1)`). The code's `incr_freq` computes
`(freq + 1) & 3`, which wraps 3 back to 0: after three hits the counter
is 3, and one more hit resets it to 0 instead of leaving it at 3. The spec
itself states "a wraparound increment is a bug", so the code is at fault. -/
theorem c1_hit_wraps_freq_to_zero :
    findTable (get (get (get cache10a 1).2 1).2 1).2.table 1 1
      = some ⟨1, 10, 3⟩ ∧
    findTable (get (get (get (get cache10a 1).2 1).2 1).2 1).2.table 1 1
      = some ⟨1, 10, 0⟩ ∧
    incrFreq (⟨1, 10, 3⟩ : Bucket Nat Nat) = ⟨1, 10, 0⟩ ∧
    min 3 (3 + 1) ≠ (0 : Nat) := by
  refine ⟨by decide, by decide, by decide, by decide⟩

/-- C2 counterexample. On `put` of a present key the claim says `freq` is
unchanged; but `put` probes through `get_mut`, which runs `incr_freq`: in
`cache10a` key 1 has `freq = 0`, and after `put 1 99` the stored frequency
is 1, not 0 (the replace itself and the returned prior value do match the
claim). -/
theorem c2_put_replace_freq_changes_cex :
    put cache10a 1 99
      = some (some 10, { cache10a with table := [(1, ⟨1, 99, 1⟩)] }) ∧
    findTable cache10a.table 1 1 = some ⟨1, 10, 0⟩ ∧
    (1 : Nat) ≠ 0 := by
  refine ⟨rfl, by decide, by decide⟩

/-- C2 amended. `put` on a present key replaces the value in place, returns
the prior value, leaves all three queues unchanged, and a subsequent `get`
yields the new value — but the entry's `freq` is NOT unchanged: the probe
goes through `get_mut`, so the stored frequency becomes `(freq + 1) & 3`. -/
theorem c2_put_replace_spec (c : S3FIFO K V) (k : K) (v : V) (b : Bucket K V)
    (hfind : findTable c.table (c.hash k) k = some b) :
    ∃ c', put c k v = some (some b.value, c') ∧
      findTable c'.table (c.hash k) k = some ⟨b.key, v, (b.freq + 1) % 4⟩ ∧
      c'.small_fifo = c.small_fifo ∧ c'.main_fifo = c.main_fifo ∧
      c'.ghost_fifo = c.ghost_fifo ∧
      (get c' k).1 = some v := by
  refine ⟨_, put_present hfind, ?_, rfl, rfl, rfl, ?_⟩
  · show findTable (tableModify (c.hash k) k (replaceValue v) c.table)
      (c.hash k) k = _
    rw [findTable_modify_self (f := replaceValue v) (fun b2 => rfl), hfind]
    rfl
  · have hf2 : findTable (tableModify (c.hash k) k (replaceValue v) c.table)
        (c.hash k) k = some ⟨b.key, v, (b.freq + 1) % 4⟩ := by
      rw [findTable_modify_self (f := replaceValue v) (fun b2 => rfl), hfind]
      rfl
    rw [get_hit hf2]

/-- C2 amended, witnessed on `cache10a` (key 1 present with value 10,
frequency 0). -/
theorem c2_put_replace_spec_witness :
    ∃ c', put cache10a 1 99 = some (some 10, c') ∧
      findTable c'.table (cache10a.hash 1) 1 = some ⟨1, 99, (0 + 1) % 4⟩ ∧
      c'.small_fifo = cache10a.small_fifo ∧ c'.main_fifo = cache10a.main_fifo ∧
      c'.ghost_fifo = cache10a.ghost_fifo ∧
      (get c' 1).1 = some 99 :=
  c2_put_replace_spec cache10a 1 99 ⟨1, 10, 0⟩ rfl

/-- C3. The claim says a cache with capacity `C = 0` (and more generally any
`C < 10`, so `S = 0`) treats `put` as a legal no-op that returns `None` and
never aborts. In the code, `put` of an absent key runs `evict_small` (a
no-op on the empty small queue) and then hits
`assert!(small_fifo.len() != small_fifo.capacity())` with `0 != 0`, which
panics. `get` on such a cache does miss as claimed. -/
theorem c3_put_panics_below_capacity_ten (cap k v : Nat) :
    put (withHasher (cap % 10) natHash : S3FIFO Nat Nat) k v = none ∧
    (get (withHasher 0 natHash : S3FIFO Nat Nat) k).1 = none := by
  constructor
  · have hsc : ((withHasher (cap % 10) natHash : S3FIFO Nat Nat)).small_cap = 0 :=
      Nat.div_eq_of_lt (Nat.mod_lt _ (by omega))
    refine put_small_assert_panic (v := v)
      (s := []) (t := (withHasher (cap % 10) natHash : S3FIFO Nat Nat).table)
      (m := (withHasher (cap % 10) natHash : S3FIFO Nat Nat).main_fifo)
      (g := (withHasher (cap % 10) natHash : S3FIFO Nat Nat).ghost_fifo)
      rfl rfl ?_ (by rw [hsc]; rfl)
    rw [if_pos (by rw [hsc]; rfl)]
    rfl
  · rfl


/-! ### A pointer-accurate model of the cache for claim C4

The by-value model above abstracts `Bucket::key_ptr`. The definitions below
keep the memory layout the pointer depends on: each `VecDeque` is a ring
buffer of physical slots, `key_ptr` names the queue and slot it points into,
and dereferencing reads whatever currently sits in that slot — including
bytes left behind by `pop_front` and bytes written by a later `push_back`
into the same slot. All `assert_main_fifo` self-checks of the source are
included. -/

/-- Rust `VecDeque<α>` as laid out in memory: `buf` is the allocation
(`capacity()` slots), `head` the physical index of the front element, `len`
the element count; logical index `i` lives in physical slot
`(head + i) % buf.length`. `pop_front` moves the element out without erasing
the slot, and `push_back` writes slot `(head + len) % buf.length` — which is
what a stale pointer into the buffer observes. -/
structure RingBuf (α : Type) where
  buf : List (Option α)
  head : Nat
  len : Nat
deriving DecidableEq, Repr

def RingBuf.new {α : Type} (cap : Nat) : RingBuf α :=
  { buf := List.replicate cap none, head := 0, len := 0 }

def RingBuf.capacity {α : Type} (r : RingBuf α) : Nat := r.buf.length

/-- Physical slot of logical index `i`. -/
def RingBuf.slot {α : Type} (r : RingBuf α) (i : Nat) : Nat :=
  (r.head + i) % r.buf.length

/-- Read a physical slot (what a raw pointer into the buffer sees). -/
def RingBuf.read {α : Type} (r : RingBuf α) (physical : Nat) : Option α :=
  r.buf.getD physical none

/-- Rust `VecDeque::push_back`: write the slot past the last element. -/
def RingBuf.push_back {α : Type} (r : RingBuf α) (a : α) : RingBuf α :=
  { r with buf := r.buf.set (r.slot r.len) (some a), len := r.len + 1 }

/-- Rust `VecDeque::pop_front`: move the front element out; its slot keeps
its bytes until something else is pushed over it. -/
def RingBuf.pop_front {α : Type} (r : RingBuf α) : Option (α × RingBuf α) :=
  if r.len = 0 then none
  else (r.read (r.slot 0)).map fun a =>
    (a, { r with head := (r.head + 1) % r.buf.length, len := r.len - 1 })

/-- The live elements, front to back. -/
def RingBuf.toList {α : Type} (r : RingBuf α) : List α :=
  (List.range r.len).filterMap fun i => r.read (r.slot i)

/-- Rust `*const K` stored in `Bucket::key_ptr`: which queue's buffer it
points into and at which physical slot. -/
inductive KeyPtr where
  | smallSlot (i : Nat)
  | mainSlot (i : Nat)
deriving DecidableEq, Repr

/-- Rust `struct Bucket<K, V>` with the pointer kept as a pointer. -/
structure PtrBucket (V : Type) where
  key_ptr : KeyPtr
  value : V
  freq : Nat
deriving DecidableEq, Repr

/-- Rust `struct S3FIFO<K, V, S>` over ring buffers and pointer buckets. -/
structure PtrS3FIFO (K V : Type) where
  hash : K → HashValue
  small_fifo : RingBuf (K × HashValue)
  main_fifo : RingBuf (K × HashValue)
  ghost_fifo : GhostFIFOCache
  table : List (HashValue × PtrBucket V)

/-- Rust `S3FIFO::with_hasher` for the pointer model. -/
def ptrWithHasher (cap : Nat) (hash : K → HashValue) : PtrS3FIFO K V :=
  { hash := hash
    small_fifo := RingBuf.new (cap / 10)
    main_fifo := RingBuf.new (cap * 9 / 10)
    ghost_fifo := GhostFIFOCache.new (cap * 9 / 10)
    table := [] }

/-- Dereference `key_ptr`: read the key currently in the slot it points at. -/
def derefKey (c : PtrS3FIFO K V) : KeyPtr → Option K
  | .smallSlot i => (c.small_fifo.read i).map Prod.fst
  | .mainSlot i => (c.main_fifo.read i).map Prod.fst

/-- The probe `table.find(hash, |probe_bucket| (*probe_bucket.key_ptr).eq(k))`
with the dereference performed against the current buffers. -/
def ptrProbes (c : PtrS3FIFO K V) (h : HashValue) (k : K)
    (e : HashValue × PtrBucket V) : Bool :=
  e.1 == h && derefKey c e.2.key_ptr == some k

def ptrFind (c : PtrS3FIFO K V) (h : HashValue) (k : K) : Option (PtrBucket V) :=
  (c.table.find? (ptrProbes c h k)).map Prod.snd

/-- Rewrite the first bucket the probe matches (mutation via `find_mut` /
`find_entry(..).get_mut()`). -/
def ptrModify (c : PtrS3FIFO K V) (h : HashValue) (k : K)
    (f : PtrBucket V → PtrBucket V) :
    List (HashValue × PtrBucket V) → List (HashValue × PtrBucket V)
  | [] => []
  | e :: rest =>
    if ptrProbes c h k e then (e.1, f e.2) :: rest
    else e :: ptrModify c h k f rest

def ptrRemove (c : PtrS3FIFO K V) (h : HashValue) (k : K) :
    List (HashValue × PtrBucket V) :=
  c.table.eraseP (ptrProbes c h k)

/-- Rust `Bucket::incr_freq` on a pointer bucket. -/
def ptrIncrFreq (b : PtrBucket V) : PtrBucket V :=
  { b with freq := (b.freq + 1) % 4 }

/-- The in-place update `put` performs on a present key: replace the value
(`mem::replace`) after `get_mut` already ran `incr_freq`. -/
def ptrReplaceValue (v : V) (b : PtrBucket V) : PtrBucket V :=
  { ptrIncrFreq b with value := v }

/-- Write a bucket's decremented frequency back (`bucket_mut.freq = freq`). -/
def ptrSetFreq (n : Nat) (b : PtrBucket V) : PtrBucket V :=
  { b with freq := n }

/-- Rust `S3FIFO::assert_main_fifo` (src/lib.rs:219-228): every element of
the main queue must be found in the table through its hash and a pointer
dereference. `false` is the `assert!` panic. -/
def assertMainFifo (c : PtrS3FIFO K V) : Bool :=
  (List.range c.main_fifo.len).all fun i =>
    match c.main_fifo.read (c.main_fifo.slot i) with
    | none => false
    | some e => (ptrFind c e.2 e.1).isSome

/-- Rust `S3FIFO::get` in the pointer model (hit runs `incr_freq`). -/
def ptrGet (c : PtrS3FIFO K V) (k : K) : Option V × PtrS3FIFO K V :=
  match ptrFind c (c.hash k) k with
  | none => (none, c)
  | some b =>
    (some b.value,
      { c with table := ptrModify c (c.hash k) k ptrIncrFreq c.table })

/-- Rust `S3FIFO::evict_main` in the pointer model. The recycled entry's
bucket keeps its `key_ptr` unchanged, exactly as the source never updates
it. Fuel exhaustion is reported as the distinct `nofuel`. -/
def ptrEvictMainFuel : Nat → PtrS3FIFO K V → EvictRes (PtrS3FIFO K V)
  | 0, c =>
    match c.main_fifo.pop_front with
    | none => .ok c
    | some _ => .nofuel
  | fuel + 1, c =>
    match c.main_fifo.pop_front with
    | none => .ok c
    | some ((key, h), main1) =>
      let c1 : PtrS3FIFO K V := { c with main_fifo := main1 }
      match ptrFind c1 h key with
      | none => .panicked
      | some b =>
        let freq := b.freq - 1
        if freq > 0 then
          let c2 := { c1 with
            table := ptrModify c1 h key (ptrSetFreq freq) c1.table }
          ptrEvictMainFuel fuel
            { c2 with main_fifo := c2.main_fifo.push_back (key, h) }
        else
          .ok { c1 with table := ptrRemove c1 h key }

/-- Rust `S3FIFO::evict_small` in the pointer model, including the
`assert_main_fifo` self-checks at lib.rs:175 (after an inner main eviction)
and lib.rs:182 (after a removal). A promotion pushes the key pair onto the
main ring but leaves the bucket's `key_ptr` pointing into the small ring —
the dangling pointer lib.rs:150 complains about. -/
def ptrEvictSmallFuel : Nat → PtrS3FIFO K V → EvictRes (PtrS3FIFO K V)
  | 0, c =>
    match c.small_fifo.pop_front with
    | none => .ok c
    | some _ => .nofuel
  | fuel + 1, c =>
    match c.small_fifo.pop_front with
    | none => .ok c
    | some ((key, h), small1) =>
      let c1 : PtrS3FIFO K V := { c with small_fifo := small1 }
      match ptrFind c1 h key with
      | none => .panicked
      | some b =>
        let freq := b.freq - 1
        if freq > 0 then
          let c2 := { c1 with
            table := ptrModify c1 h key (ptrSetFreq freq) c1.table }
          match ((if c2.main_fifo.len = c2.main_fifo.capacity then
                   match ptrEvictMainFuel (4 * c2.main_fifo.len) c2 with
                   | .ok c3 => if assertMainFifo c3 then .ok c3 else .panicked
                   | .panicked => .panicked
                   | .nofuel => .nofuel
                 else .ok c2) : EvictRes (PtrS3FIFO K V)) with
          | .ok c3 =>
            ptrEvictSmallFuel fuel
              { c3 with main_fifo := c3.main_fifo.push_back (key, h) }
          | .panicked => .panicked
          | .nofuel => .nofuel
        else
          let c2 := { c1 with table := ptrRemove c1 h key }
          if assertMainFifo c2 then
            match c2.ghost_fifo.insert h with
            | none => .panicked
            | some g => .ok { c2 with ghost_fifo := g }
          else .panicked

/-- Rust `S3FIFO::put` in the pointer model, with every `assert_main_fifo`
self-check of src/lib.rs:81-156 in place (lines 92/95 around the ghost
branch's main eviction, 111/114 around `evict_small`, 124 before the small
push, 151 after the table insert) together with the asserts at lines 116
and 118. `panicked` is a Rust panic; `nofuel` only reports an exhausted
iteration budget inside an evictor. -/
def ptrPut (c : PtrS3FIFO K V) (k : K) (v : V) :
    EvictRes (Option V × PtrS3FIFO K V) :=
  match ptrFind c (c.hash k) k with
  | some b =>
    .ok (some b.value,
      { c with table := ptrModify c (c.hash k) k (ptrReplaceValue v) c.table })
  | none =>
    if c.ghost_fifo.contains (c.hash k) then
      match ((if c.main_fifo.len = c.main_fifo.capacity then
               if assertMainFifo c then
                 match ptrEvictMainFuel (4 * c.main_fifo.len) c with
                 | .ok c1 => if assertMainFifo c1 then .ok c1 else .panicked
                 | .panicked => .panicked
                 | .nofuel => .nofuel
               else .panicked
             else .ok c) : EvictRes (PtrS3FIFO K V)) with
      | .ok c1 =>
        let slot := c1.main_fifo.slot c1.main_fifo.len
        let c2 := { c1 with main_fifo := c1.main_fifo.push_back (k, c.hash k) }
        .ok (none, { c2 with
          table := c2.table ++ [(c.hash k, ⟨.mainSlot slot, v, 0⟩)] })
      | .panicked => .panicked
      | .nofuel => .nofuel
    else
      match ((if c.small_fifo.len = c.small_fifo.capacity then
               if assertMainFifo c then
                 match ptrEvictSmallFuel c.small_fifo.len c with
                 | .ok c1 => if assertMainFifo c1 then .ok c1 else .panicked
                 | .panicked => .panicked
                 | .nofuel => .nofuel
               else .panicked
             else .ok c) : EvictRes (PtrS3FIFO K V)) with
      | .ok c1 =>
        if c1.small_fifo.len = c1.small_fifo.capacity then .panicked
        else if (ptrFind c1 (c.hash k) k).isSome then .panicked
        else if assertMainFifo c1 then
          let slot := c1.small_fifo.slot c1.small_fifo.len
          let c2 := { c1 with small_fifo := c1.small_fifo.push_back (k, c.hash k) }
          let c3 := { c2 with
            table := c2.table ++ [(c.hash k, ⟨.smallSlot slot, v, 0⟩)] }
          if assertMainFifo c3 then .ok (none, c3) else .panicked
        else .panicked
      | .panicked => .panicked
      | .nofuel => .nofuel

def EvictRes.isOk {α : Type} : EvictRes α → Bool
  | .ok _ => true
  | _ => false

def EvictRes.isPanicked {α : Type} : EvictRes α → Bool
  | .panicked => true
  | _ => false

/-- Advance the pointer model by a successful `put` (identity on failure). -/
def pstep (c : PtrS3FIFO Nat Nat) (k v : Nat) : PtrS3FIFO Nat Nat :=
  match ptrPut c k v with
  | .ok r => r.2
  | _ => c

/-- Advance the pointer model by a `get`. -/
def pgstep (c : PtrS3FIFO Nat Nat) (k : Nat) : PtrS3FIFO Nat Nat :=
  (ptrGet c k).2

/-- The empty capacity-10 pointer-model cache. -/
def pcache0 : PtrS3FIFO Nat Nat := ptrWithHasher 10 natHash

/-- Pointer-model state after the S2 prefix `put 1 10; put 2 20`. -/
def ptraceS2 : PtrS3FIFO Nat Nat := pstep (pstep pcache0 1 10) 2 20

/-- Pointer-model state after `put 1 10; get 1; get 1` (key 1 now has
`freq = 2`, so the next small eviction promotes it). -/
def ptrace3 : PtrS3FIFO Nat Nat := pgstep (pgstep (pstep pcache0 1 10) 1) 1

/-- C4. The claim asserts that `put` of an absent key enqueues it (Main on a
ghost hit, Small otherwise) and "then returns None". Evaluated on the
pointer-accurate model: the claim's own S2 trace (`put 1; put 2; put 1` at
`C = 10`) does complete with Main = {1} and Small = {2}; but the equally
reachable trace `put 1; get 1; get 1; put 2` panics instead of returning
`None`. The final `put` finds key 2 absent and not in Ghost, runs
`evict_small`, which promotes key 1 (freq 2 − 1 = 1 > 0) to Main while its
bucket's `key_ptr` keeps pointing into the small ring slot (lib.rs:177);
the push of key 2 (lib.rs:127) overwrites that slot, and the
`assert_main_fifo` self-check after the insert (lib.rs:151) dereferences
the stale pointer, reads key 2, cannot find key 1, and panics — the
failure the source's lib.rs:150 comment records. -/
theorem c4_absent_put_panics_on_stale_key_ptr :
    ((ptrPut ptraceS2 1 11).isOk = true) ∧
    ((pstep ptraceS2 1 11).main_fifo.toList.map Prod.fst = [1]) ∧
    ((pstep ptraceS2 1 11).small_fifo.toList.map Prod.fst = [2]) ∧
    ((ptrPut pcache0 1 10).isOk = true) ∧
    (ptrFind ptrace3 (ptrace3.hash 2) 2 = none) ∧
    (ptrace3.ghost_fifo.contains (ptrace3.hash 2) = false) ∧
    ((ptrPut ptrace3 2 20).isPanicked = true) := by
  refine ⟨by decide, by decide, by decide, by decide, by decide, by decide,
    by decide⟩

/-- C5. After every public operation (i.e. in every reachable state), the
number of keys in the Index equals `|SmallFIFO| + |MainFIFO|` (the table's
keys are distinct, so its length is its key count), and the two queues are
disjoint on keys. -/
theorem c5_index_count_and_disjoint (c : S3FIFO K V) (hr : Reachable c) :
    c.table.length = c.small_fifo.length + c.main_fifo.length ∧
    (c.table.map fun e => e.2.key).Nodup ∧
    ∀ k0, k0 ∈ queueKeys c.small_fifo → k0 ∉ queueKeys c.main_fifo := by
  have hi := reachable_inv hr
  refine ⟨hi.count, hi.tnodup, ?_⟩
  intro k0 h1 h2
  have hnd := hi.qnodup
  rw [queueKeys_append, List.nodup_append] at hnd
  exact hnd.2.2 h1 h2

/-- C5, witnessed on the state reached by `put 1 10` from an empty
capacity-10 cache. -/
theorem c5_index_count_and_disjoint_witness :
    cache10a.table.length = cache10a.small_fifo.length + cache10a.main_fifo.length ∧
    (cache10a.table.map fun e => e.2.key).Nodup ∧
    ∀ k0, k0 ∈ queueKeys cache10a.small_fifo → k0 ∉ queueKeys cache10a.main_fifo :=
  c5_index_count_and_disjoint cache10a
    (Reachable.put 1 10 (Reachable.init 10 natHash) rfl)

/-- C6. In every reachable state every entry's frequency counter lies in
`{0, 1, 2, 3}`: admission writes 0, the wrapping increment stays below 4,
and the evictors' saturating decrement cannot go below 0. -/
theorem c6_freq_in_range (c : S3FIFO K V) (hr : Reachable c) :
    ∀ e ∈ c.table, 0 ≤ e.2.freq ∧ e.2.freq ≤ 3 :=
  fun e he => ⟨Nat.zero_le _, (reachable_inv hr).freqLe e he⟩

/-- C6, witnessed on the state reached by `put 1 10; put 2 20` (which runs
one small eviction into the ghost queue), at its one stored entry. -/
theorem c6_freq_in_range_witness :
    (((2 : Nat), (⟨2, 20, 0⟩ : Bucket Nat Nat)) ∈ cache10b.table) ∧
    (0 ≤ ((2 : Nat), (⟨2, 20, 0⟩ : Bucket Nat Nat)).2.freq ∧
      ((2 : Nat), (⟨2, 20, 0⟩ : Bucket Nat Nat)).2.freq ≤ 3) :=
  ⟨by decide,
    c6_freq_in_range cache10b
      (Reachable.put 2 20 (Reachable.put 1 10 (Reachable.init 10 natHash) rfl) rfl)
      (2, ⟨2, 20, 0⟩) (by decide)⟩

/-- C7. Both eviction loops terminate within `4·|queue|` iterations: the
small loop pops an element per pass, and the main loop's per-pass decrement
of a counter bounded by 3 makes `4·|main|` fuel suffice. Completing from a
nonempty queue frees one slot (the queue shrinks). -/
theorem c7_eviction_terminates (t : Table K V) (m s : List (K × HashValue))
    (mainCap : Nat) (g : GhostFIFOCache)
    (hfreq : ∀ e ∈ t, e.2.freq ≤ 3) :
    evictMainFuel (4 * m.length) t m ≠ .nofuel ∧
    evictSmallFuel (4 * s.length) s t m mainCap g ≠ .nofuel ∧
    (∀ t' m', evictMainFuel (4 * m.length) t m = .ok (t', m') → m ≠ [] →
      m'.length + 1 = m.length) ∧
    (∀ s' t' m' g', evictSmallFuel (4 * s.length) s t m mainCap g
      = .ok (s', t', m', g') → s ≠ [] → s'.length < s.length) := by
  refine ⟨?_, ?_, ?_, ?_⟩
  · exact evictMainFuel_not_nofuel _ _ _ (mainMeasure_le_of_freq hfreq m)
  · exact evictSmallFuel_not_nofuel _ _ _ _ _ _ (by omega)
  · intro t' m' he hne
    rcases evictMainFuel_ok_length _ _ _ he with ⟨h1, _, _⟩ | ⟨_, h2⟩
    · exact absurd h1 hne
    · omega
  · intro s' t' m' g' he hne
    exact (evictSmallFuel_ok_slen _ _ _ _ _ _ he).2 hne

/-- C7, witnessed on a main queue holding one frequency-3 entry and a small
queue holding one promoted entry. -/
theorem c7_eviction_terminates_witness :
    evictMainFuel (4 * [((1 : Nat), (1 : HashValue))].length)
      [(1, ⟨1, 10, 3⟩), (2, ⟨2, 20, 1⟩)] [(1, 1)] ≠ .nofuel ∧
    evictSmallFuel (4 * [((2 : Nat), (2 : HashValue))].length) [(2, 2)]
      [(1, ⟨1, 10, 3⟩), (2, ⟨2, 20, 1⟩)] [(1, 1)] 9
      { table := [], ring_buffer := [], cap := 9 } ≠ .nofuel ∧
    (∀ t' m', evictMainFuel (4 * [((1 : Nat), (1 : HashValue))].length)
        [(1, ⟨1, 10, 3⟩), (2, ⟨2, 20, 1⟩)] [(1, 1)] = .ok (t', m') →
      [((1 : Nat), (1 : HashValue))] ≠ [] → m'.length + 1 = [((1 : Nat), (1 : HashValue))].length) ∧
    (∀ s' t' m' g', evictSmallFuel (4 * [((2 : Nat), (2 : HashValue))].length) [(2, 2)]
        [(1, ⟨1, 10, 3⟩), (2, ⟨2, 20, 1⟩)] [(1, 1)] 9
        { table := [], ring_buffer := [], cap := 9 } = .ok (s', t', m', g') →
      [((2 : Nat), (2 : HashValue))] ≠ [] → s'.length < [((2 : Nat), (2 : HashValue))].length) :=
  c7_eviction_terminates [(1, ⟨1, 10, 3⟩), (2, ⟨2, 20, 1⟩)] [(1, 1)] [(2, 2)] 9
    { table := [], ring_buffer := [], cap := 9 } (by decide)

/-- C8. Every reachable state respects the configured bounds fixed at
construction: `|Small| ≤ S = ⌊C/10⌋`, `|Main| ≤ M = ⌊9C/10⌋`, and the ghost
queue's capacity is `G = M` with `|Ghost| ≤ G`. -/
theorem c8_queue_bounds (c : S3FIFO K V) (hr : Reachable c) :
    ∃ cap, c.small_cap = cap / 10 ∧ c.main_cap = cap * 9 / 10 ∧
      c.ghost_fifo.cap = c.main_cap ∧
      c.small_fifo.length ≤ c.small_cap ∧
      c.main_fifo.length ≤ c.main_cap ∧
      c.ghost_fifo.ring_buffer.length ≤ c.ghost_fifo.cap := by
  have hi := reachable_inv hr
  rcases hi.caps with ⟨cap, h1, h2⟩
  exact ⟨cap, h1, h2, hi.capg, hi.smallLe, hi.mainLe, hi.ghost.lecap⟩

/-- C8, witnessed on the state reached by `put 1 10; put 2 20`. -/
theorem c8_queue_bounds_witness :
    ∃ cap, cache10b.small_cap = cap / 10 ∧ cache10b.main_cap = cap * 9 / 10 ∧
      cache10b.ghost_fifo.cap = cache10b.main_cap ∧
      cache10b.small_fifo.length ≤ cache10b.small_cap ∧
      cache10b.main_fifo.length ≤ cache10b.main_cap ∧
      cache10b.ghost_fifo.ring_buffer.length ≤ cache10b.ghost_fifo.cap :=
  c8_queue_bounds cache10b
    (Reachable.put 2 20 (Reachable.put 1 10 (Reachable.init 10 natHash) rfl) rfl)

/-- C9. For a well-formed ghost queue (mirror table in sync, positive
capacity): inserting a present fingerprint changes nothing; inserting an
absent one when the buffer is at capacity evicts the head fingerprint before
pushing the new one at the tail; inserting an absent one when not full just
pushes at the tail. -/
theorem c9_ghost_insert_spec (g : GhostFIFOCache) (h : HashValue)
    (hsync : g.table = g.ring_buffer) (hcap : 0 < g.cap) :
    (g.contains h = true → g.insert h = some g) ∧
    (g.contains h = false → g.ring_buffer.length = g.cap →
      ∃ garbage rest, g.ring_buffer = garbage :: rest ∧
        g.insert h = some
          { table := g.table.eraseP (fun probe => probe == garbage) ++ [h]
            ring_buffer := rest ++ [h]
            cap := g.cap }) ∧
    (g.contains h = false → g.ring_buffer.length ≠ g.cap →
      g.insert h = some
        { table := g.table ++ [h]
          ring_buffer := g.ring_buffer ++ [h]
          cap := g.cap }) := by
  refine ⟨?_, ?_, ?_⟩
  · intro hc
    rw [GhostFIFOCache.insert, if_pos hc]
  · intro hc hfull
    have hc' : ¬g.contains h = true := by simp [hc]
    cases hbuf : g.ring_buffer with
    | nil =>
      rw [hbuf] at hfull
      simp at hfull
      omega
    | cons garbage rest =>
      refine ⟨garbage, rest, rfl, ?_⟩
      rw [GhostFIFOCache.insert, if_neg hc', if_pos hfull, hbuf]
      have hgt : garbage ∈ g.table := by
        rw [hsync, hbuf]
        exact List.mem_cons_self ..
      have hfindg : (g.table.find? (fun probe => probe == garbage)).isSome = true :=
        List.find?_isSome.2 ⟨garbage, hgt, by simp⟩
      show (if (g.table.find? (fun probe => probe == garbage)).isSome = true then
              (some { table := g.table.eraseP (fun probe => probe == garbage) ++ [h]
                      ring_buffer := rest ++ [h]
                      cap := g.cap } : Option GhostFIFOCache)
            else none) = _
      rw [if_pos hfindg]
  · intro hc hfull
    have hc' : ¬g.contains h = true := by simp [hc]
    rw [GhostFIFOCache.insert, if_neg hc', if_neg hfull]

/-- A full one-slot ghost queue holding fingerprint 5, for the C9 witness. -/
def ghost1 : GhostFIFOCache := { table := [5], ring_buffer := [5], cap := 1 }

/-- C9, witnessed on a full one-slot ghost queue holding fingerprint 5. -/
theorem c9_ghost_insert_spec_witness :
    (ghost1.contains 7 = true → ghost1.insert 7 = some ghost1) ∧
    (ghost1.contains 7 = false → ghost1.ring_buffer.length = ghost1.cap →
      ∃ garbage rest, ghost1.ring_buffer = garbage :: rest ∧
        ghost1.insert 7 = some
          { table := ghost1.table.eraseP (fun probe => probe == garbage) ++ [7]
            ring_buffer := rest ++ [7]
            cap := ghost1.cap }) ∧
    (ghost1.contains 7 = false → ghost1.ring_buffer.length ≠ ghost1.cap →
      ghost1.insert 7 = some
        { table := ghost1.table ++ [7]
          ring_buffer := ghost1.ring_buffer ++ [7]
          cap := ghost1.cap }) :=
  c9_ghost_insert_spec ghost1 7 rfl (by decide)

/-- Decomposition of a successful probe: the table splits around the first
matching bucket, and `tableModify` rewrites exactly that bucket. -/
theorem tableModify_decomp {t : Table K V} {h : HashValue} {k : K}
    {b : Bucket K V} (hfind : findTable t h k = some b)
    (f : Bucket K V → Bucket K V) :
    ∃ t1 e t2, t = t1 ++ e :: t2 ∧
      (∀ e0 ∈ t1, probes h k e0 = false) ∧
      probes h k e = true ∧ e.2 = b ∧
      tableModify h k f t = t1 ++ (e.1, f e.2) :: t2 := by
  induction t with
  | nil => simp [findTable] at hfind
  | cons e rest ih =>
    by_cases hp : probes h k e
    · refine ⟨[], e, rest, rfl, by simp, hp, ?_, ?_⟩
      · have hthis : findTable (e :: rest) h k = some e.2 := by
          simp [findTable, List.find?_cons_of_pos _ hp]
        rw [hthis] at hfind
        cases hfind
        rfl
      · simp [tableModify, hp]
    · have hfind' : findTable rest h k = some b := by
        simpa [findTable, List.find?_cons_of_neg _ hp] using hfind
      rcases ih hfind' with ⟨t1, e1, t2, heq, hall, hpe, heb, hmod⟩
      refine ⟨e :: t1, e1, t2, by rw [heq]; rfl, ?_, hpe, heb, ?_⟩
      · intro e0 he0
        rcases List.mem_cons.1 he0 with rfl | hm
        · exact Bool.eq_false_iff.2 hp
        · exact hall e0 hm
      · simp [tableModify, hp, hmod]

/-- C10. `get` is read-only apart from the hit counter: it never touches the
queues, the ghost structure, the capacities or the hasher; on a miss it
returns `None` with the state unchanged entirely; on a hit the only state
change is the `freq` field of the one bucket found for the key (its key and
value, and every other bucket, are untouched). -/
theorem c10_get_is_read_only (c : S3FIFO K V) (k : K) :
    (get c k).2.small_fifo = c.small_fifo ∧
    (get c k).2.main_fifo = c.main_fifo ∧
    (get c k).2.ghost_fifo = c.ghost_fifo ∧
    (get c k).2.small_cap = c.small_cap ∧
    (get c k).2.main_cap = c.main_cap ∧
    (get c k).2.hash = c.hash ∧
    (findTable c.table (c.hash k) k = none → get c k = (none, c)) ∧
    (∀ b, findTable c.table (c.hash k) k = some b →
      (get c k).1 = some b.value ∧
      ∃ t1 e t2, c.table = t1 ++ e :: t2 ∧
        (∀ e0 ∈ t1, probes (c.hash k) k e0 = false) ∧
        probes (c.hash k) k e = true ∧
        (get c k).2.table
          = t1 ++ (e.1, { e.2 with freq := (e.2.freq + 1) % 4 }) :: t2) := by
  cases hfind : findTable c.table (c.hash k) k with
  | none =>
    rw [get_miss hfind]
    refine ⟨rfl, rfl, rfl, rfl, rfl, rfl, fun _ => rfl, fun b hb => ?_⟩
    simp at hb
  | some b0 =>
    rw [get_hit hfind]
    refine ⟨rfl, rfl, rfl, rfl, rfl, rfl, fun hn => ?_, fun b hb => ?_⟩
    · simp at hn
    · have hbb : b0 = b := by
        injection hb
      subst hbb
      refine ⟨rfl, ?_⟩
      rcases tableModify_decomp hfind incrFreq with
        ⟨t1, e, t2, heq, hall, hpe, heb, hmod⟩
      refine ⟨t1, e, t2, heq, hall, hpe, ?_⟩
      show tableModify (c.hash k) k incrFreq c.table = _
      rw [hmod]
      rfl

end S3Fifo
